import Mathlib

/-!
Verification of the commit-graph construction core of the
commits-of-your-life repository.

The embedding covers:
* the data model (`Event`, `BranchEntry`, `Commit`, `RepoState`);
* the branch-plan validator (`design_branch_structure` in `src/agents.py`,
  lines 269-290);
* the timeline sequencer and commit-graph builder
  (`create_life_repo` in `src/app.py`, lines 123-278);
* the metadata-driven graph reader
  (`extract_graph_data` in `src/visualize.py`, lines 84-143).

Dates are abstracted to `Nat`: `dateutil.parser.parse` is a partial function
from date strings into a totally ordered set, embedded as an arbitrary
`parse : String → Option Nat` argument.  Git, the external storage engine,
is embedded as an explicit commit list plus ref-tip map inside `RepoState`;
commit ids are allocation indices (a stand-in for content hashes, which the
core never inspects beyond equality).
-/

namespace LifeRepo

/-- One narrative moment, as produced by `format_for_git_creation`
(`src/agents.py`, lines 303-315): the dict keys `commit_message`, `date`,
`description`, `keyword`.  A missing / empty keyword is the empty string,
matching the Python truthiness test `if event.get('keyword')`. -/
structure Event where
  commit_message : String
  date : String
  description : String
  keyword : String
deriving Repr, DecidableEq

/-- A proposed narrative branch, as produced by the branch-planning
collaborator (`design_branch_structure` JSON schema, `src/agents.py`).
`merges` and `merge_message` are optional because the builder reads them
with `dict.get` defaults (`src/app.py`, lines 227 and 230); indices are
integers straight from JSON, hence `Int` (the validator's
`0 <= idx < len(events)` check is meaningful).  The advisory
`opens_at_event` field is never read by the validator or the builder and is
omitted. -/
structure BranchEntry where
  name : String
  merges : Option Bool
  merge_message : Option String
  events_on_branch : List Int
deriving Repr, DecidableEq

/- ------------------------------------------------------------------ -/
/- Branch Plan Validator: `design_branch_structure`, src/agents.py
   lines 273-287.  `seen` is the running `seen_events` set of indices
   claimed by earlier-accepted candidates. -/
/- ------------------------------------------------------------------ -/

/-- The validation loop of `design_branch_structure`
(`src/agents.py`, lines 275-287): per candidate, reject if fewer than 2
indices, reject if any index already claimed, reject if any index out of
`[0, numEvents)`, else accept and claim its indices. -/
def validateAux (numEvents : Nat) : List BranchEntry → List Int → List BranchEntry
  | [], _ => []
  | b :: rest, seen =>
    if b.events_on_branch.length < 2 then
      validateAux numEvents rest seen
    else if b.events_on_branch.any (fun idx => seen.contains idx) then
      validateAux numEvents rest seen
    else if !(b.events_on_branch.all (fun idx => decide (0 ≤ idx ∧ idx < (numEvents : Int)))) then
      validateAux numEvents rest seen
    else
      b :: validateAux numEvents rest (seen ++ b.events_on_branch)

/-- The validator of `design_branch_structure` applied to the parsed
`branches` list, starting from an empty claimed set. -/
def design_branch_structure (branches : List BranchEntry) (numEvents : Nat) :
    List BranchEntry :=
  validateAux numEvents branches []

/-- The branch-planning collaborator's reply as seen by
`design_branch_structure` after `_call_claude`: either text that
`json.loads` rejects, or a parsed JSON object whose `branches` key may be
absent (`result.get("branches", [])`). -/
inductive PlanResponse where
  | malformed
  | parsed (branches : Option (List BranchEntry))
deriving Repr, DecidableEq

/-- Plan-processing step of `design_branch_structure`
(`src/agents.py`, lines 269-290): a `json.loads` failure is caught and an
empty plan returned; a missing `branches` key defaults to `[]`; otherwise
the candidate list is validated. -/
def processPlanResponse (resp : PlanResponse) (numEvents : Nat) : List BranchEntry :=
  match resp with
  | .malformed => []
  | .parsed none => design_branch_structure [] numEvents
  | .parsed (some bs) => design_branch_structure bs numEvents

/- Validator lemmas -/

theorem validateAux_sublist (numEvents : Nat) :
    ∀ (bs : List BranchEntry) (seen : List Int),
      (validateAux numEvents bs seen).Sublist bs := by
  intro bs
  induction bs with
  | nil => intro seen; simp [validateAux]
  | cons b rest ih =>
    intro seen
    rw [validateAux]
    split
    · exact (ih seen).trans (List.sublist_cons_self b rest)
    · split
      · exact (ih seen).trans (List.sublist_cons_self b rest)
      · split
        · exact (ih seen).trans (List.sublist_cons_self b rest)
        · exact (ih (seen ++ b.events_on_branch)).cons₂ b

theorem validateAux_wf (numEvents : Nat) :
    ∀ (bs : List BranchEntry) (seen : List Int),
      ∀ b ∈ validateAux numEvents bs seen,
        2 ≤ b.events_on_branch.length ∧
        (∀ i ∈ b.events_on_branch, 0 ≤ i ∧ i < (numEvents : Int)) := by
  intro bs
  induction bs with
  | nil => intro seen b hb; simp [validateAux] at hb
  | cons c rest ih =>
    intro seen b hb
    rw [validateAux] at hb
    split at hb
    · exact ih seen b hb
    · split at hb
      · exact ih seen b hb
      · split at hb
        · exact ih seen b hb
        · rcases List.mem_cons.mp hb with hb | hb
          · subst hb
            constructor
            · omega
            · rename_i hlen _ hall
              intro i hi
              have hall' : ∀ x ∈ b.events_on_branch, 0 ≤ x ∧ x < (numEvents : Int) := by
                simpa using hall
              exact hall' i hi
          · exact ih (seen ++ c.events_on_branch) b hb

theorem validateAux_not_seen (numEvents : Nat) :
    ∀ (bs : List BranchEntry) (seen : List Int),
      ∀ b ∈ validateAux numEvents bs seen,
        ∀ i ∈ b.events_on_branch, i ∉ seen := by
  intro bs
  induction bs with
  | nil => intro seen b hb; simp [validateAux] at hb
  | cons c rest ih =>
    intro seen b hb
    rw [validateAux] at hb
    split at hb
    · exact ih seen b hb
    · split at hb
      · exact ih seen b hb
      · split at hb
        · exact ih seen b hb
        · rcases List.mem_cons.mp hb with hb | hb
          · subst hb
            intro i hi hmem
            rename_i hany _
            exact absurd (List.any_eq_true.mpr ⟨i, hi, by simpa using hmem⟩) hany
          · intro i hi hmem
            exact ih (seen ++ c.events_on_branch) b hb i hi
              (by simp [hmem])

theorem validateAux_pairwise_disjoint (numEvents : Nat) :
    ∀ (bs : List BranchEntry) (seen : List Int),
      (validateAux numEvents bs seen).Pairwise
        (fun a b => ∀ i ∈ a.events_on_branch, i ∉ b.events_on_branch) := by
  intro bs
  induction bs with
  | nil => intro seen; simp [validateAux]
  | cons c rest ih =>
    intro seen
    rw [validateAux]
    split
    · exact ih seen
    · split
      · exact ih seen
      · split
        · exact ih seen
        · refine List.Pairwise.cons ?_ (ih (seen ++ c.events_on_branch))
          intro b hb i hi hib
          have := validateAux_not_seen numEvents rest (seen ++ c.events_on_branch) b hb i hib
          simp [hi] at this

theorem validateAux_of_valid (numEvents : Nat) :
    ∀ (bs : List BranchEntry) (seen : List Int),
      (∀ b ∈ bs, 2 ≤ b.events_on_branch.length ∧
        (∀ i ∈ b.events_on_branch, 0 ≤ i ∧ i < (numEvents : Int)) ∧
        (∀ i ∈ b.events_on_branch, i ∉ seen)) →
      bs.Pairwise (fun a b => ∀ i ∈ a.events_on_branch, i ∉ b.events_on_branch) →
      validateAux numEvents bs seen = bs := by
  intro bs
  induction bs with
  | nil => intro seen _ _; simp [validateAux]
  | cons c rest ih =>
    intro seen hwf hpw
    obtain ⟨hlen, hrange, hseen⟩ := hwf c (List.mem_cons_self c rest)
    rw [validateAux]
    rw [if_neg (by omega)]
    have hany : c.events_on_branch.any (fun idx => seen.contains idx) = false := by
      simp only [List.any_eq_false]
      intro i hi
      simpa using hseen i hi
    rw [hany]
    simp only [Bool.false_eq_true, if_false]
    have hall : c.events_on_branch.all
        (fun idx => decide (0 ≤ idx ∧ idx < (numEvents : Int))) = true := by
      simp only [List.all_eq_true]
      intro i hi
      simpa using hrange i hi
    rw [hall]
    simp only [Bool.not_true, Bool.false_eq_true, if_false]
    congr 1
    apply ih (seen ++ c.events_on_branch)
    · intro b hb
      obtain ⟨h1, h2, h3⟩ := hwf b (List.mem_cons_of_mem c hb)
      refine ⟨h1, h2, ?_⟩
      intro i hi
      simp only [List.mem_append]
      push_neg
      refine ⟨h3 i hi, ?_⟩
      intro hic
      exact (List.pairwise_cons.mp hpw).1 b hb i hic hi
    · exact (List.pairwise_cons.mp hpw).2

/-- C3: the validator processes candidates in the given order and accepts a
candidate exactly when its `events_on_branch` has at least 2 elements, every
index lies in `[0, numEvents)`, and no index was claimed by an
earlier-accepted candidate (the `seen` set); consequently the output is an
order-preserving sublist of the input (rejected candidates are silently
dropped — the function is total, nothing is raised), every accepted entry is
well-formed, and accepted entries have pairwise-disjoint
`events_on_branch` sets. -/
theorem C3_validator_accepts_exactly (numEvents : Nat) :
    (∀ (b : BranchEntry) (rest : List BranchEntry) (seen : List Int),
      validateAux numEvents (b :: rest) seen =
        if 2 ≤ b.events_on_branch.length ∧
            (∀ i ∈ b.events_on_branch, 0 ≤ i ∧ i < (numEvents : Int)) ∧
            (∀ i ∈ b.events_on_branch, i ∉ seen) then
          b :: validateAux numEvents rest (seen ++ b.events_on_branch)
        else
          validateAux numEvents rest seen) ∧
    ∀ (bs : List BranchEntry),
      (design_branch_structure bs numEvents).Sublist bs ∧
      (∀ b ∈ design_branch_structure bs numEvents,
        2 ≤ b.events_on_branch.length ∧
        (∀ i ∈ b.events_on_branch, 0 ≤ i ∧ i < (numEvents : Int))) ∧
      (design_branch_structure bs numEvents).Pairwise
        (fun a b => ∀ i ∈ a.events_on_branch, i ∉ b.events_on_branch) := by
  constructor
  · intro b rest seen
    rw [validateAux]
    split
    · rename_i hlen
      rw [if_neg]
      intro hc
      omega
    · split
      · rename_i hlen hany
        rw [if_neg]
        intro hc
        obtain ⟨i, hi, hiseen⟩ := List.any_eq_true.mp hany
        exact hc.2.2 i hi (by simpa using hiseen)
      · split
        · rename_i hlen hany hall
          rw [if_neg]
          intro hc
          simp only [Bool.not_eq_eq_eq_not, Bool.not_true, List.all_eq_false] at hall
          obtain ⟨x, hx, hximp⟩ := hall
          exact hximp (by simpa using hc.2.1 x hx)
        · rename_i hlen hany hall
          rw [if_pos]
          refine ⟨by omega, ?_, ?_⟩
          · intro i hi
            have : b.events_on_branch.all
                (fun idx => decide (0 ≤ idx ∧ idx < (numEvents : Int))) = true := by
              simpa using hall
            simpa using List.all_eq_true.mp this i hi
          · intro i hi hiseen
            exact absurd (List.any_eq_true.mpr ⟨i, hi, by simpa using hiseen⟩) hany
  · intro bs
    exact ⟨validateAux_sublist numEvents bs [],
      validateAux_wf numEvents bs [],
      validateAux_pairwise_disjoint numEvents bs []⟩

/-- C9: the validator is idempotent — feeding `design_branch_structure`'s
output back through it (with the same event count) accepts every entry
unchanged and in the same order. -/
theorem C9_validator_idempotent (bs : List BranchEntry) (numEvents : Nat) :
    design_branch_structure (design_branch_structure bs numEvents) numEvents =
      design_branch_structure bs numEvents := by
  unfold design_branch_structure
  apply validateAux_of_valid
  · intro b hb
    obtain ⟨h1, h2⟩ := validateAux_wf numEvents bs [] b hb
    exact ⟨h1, h2, fun i _ => List.not_mem_nil i⟩
  · exact validateAux_pairwise_disjoint numEvents bs []

/-- C8: a branch-planning response that is not well-formed JSON (or lacks the
`branches` key) makes the plan-processing step return the empty branch plan
instead of raising; every event then lands on the integration line. -/
theorem C8_malformed_plan_tolerated (numEvents : Nat) :
    processPlanResponse .malformed numEvents = [] ∧
    processPlanResponse (.parsed none) numEvents = [] := by
  constructor
  · rfl
  · rfl

/- ------------------------------------------------------------------ -/
/- Data model of the git engine as consumed by the builder:
   commits with explicit parents and timestamps, refs as tips.        -/
/- ------------------------------------------------------------------ -/

/-- One persisted commit.  `id` is the allocation index (a stand-in for the
content hash, which the core only ever compares for equality); both
timestamps are set explicitly by the builder (`author_date` /
`commit_date` in `repo.index.commit`, `GIT_AUTHOR_DATE` /
`GIT_COMMITTER_DATE` for `repo.git.merge`). -/
structure Commit where
  id : Nat
  message : String
  author_ts : Nat
  commit_ts : Nat
  parents : List Nat
deriving Repr, DecidableEq

/-- Errors that abort `create_life_repo` (the Python function raises and the
partially-built repository directory is removed; in the embedding a failed
build returns no repository state at all). -/
inductive BuildError where
  | noEvents
  | badDate (raw : String)
  | branchExists (name : String)
  | noSuchRef (name : String)
deriving Repr, DecidableEq

/-- The builder state: the engine-side repository (commit store plus ref
tips plus checked-out ref) and the out-of-band bookkeeping of
`create_life_repo` (`created_branches`, `branch_remaining`, `branch_map`,
`merge_commits`, `keyword_map`, `branch_order`). -/
structure RepoState where
  commits : List Commit
  mainTip : Nat
  branchTips : List (String × Nat)
  currentRef : String
  created_branches : List String
  branch_remaining : List (String × List Int)
  branch_map : List (Nat × String)
  merge_commits : List (Nat × String)
  keyword_map : List (Nat × String)
  branch_order : List String
deriving Repr, DecidableEq

/-- Association-list lookup (Python `dict` read). -/
def lookupA {α β : Type} [DecidableEq α] : List (α × β) → α → Option β
  | [], _ => none
  | (k, v) :: rest, key => if k = key then some v else lookupA rest key

/-- Replace the value stored at an existing key (Python `dict` write to a
present key). -/
def updateAssoc {α β : Type} [DecidableEq α] (l : List (α × β)) (k : α) (v : β) :
    List (α × β) :=
  l.map (fun p => if p.1 = k then (k, v) else p)

/-- Insert-or-replace (Python `dict` write).  Later writes to a key already
present overwrite its value; fresh keys append in insertion order. -/
def setAssoc {α β : Type} [DecidableEq α] (l : List (α × β)) (k : α) (v : β) :
    List (α × β) :=
  if l.any (fun p => p.1 = k) then updateAssoc l k v else l ++ [(k, v)]

/-- Tip of a ref: `main` is tracked separately from branch refs. -/
def RepoState.tipOf (s : RepoState) (ref : String) : Nat :=
  if ref = "main" then s.mainTip else (lookupA s.branchTips ref).getD 0

/-- Move a ref's tip to a new commit. -/
def RepoState.setTip (s : RepoState) (ref : String) (i : Nat) : RepoState :=
  if ref = "main" then { s with mainTip := i }
  else { s with branchTips := updateAssoc s.branchTips ref i }

/-- `repo.git.checkout("main")`: main always exists. -/
def checkoutMain (s : RepoState) : RepoState :=
  { s with currentRef := "main" }

/-- `repo.git.checkout(name)` for an existing ref; git fails on an unknown
ref. -/
def checkoutBranch (s : RepoState) (name : String) : Except BuildError RepoState :=
  if name = "main" ∨ s.branchTips.any (fun p => p.1 = name) then
    .ok { s with currentRef := name }
  else .error (.noSuchRef name)

/-- `repo.git.checkout("-b", name)`: create a branch at the currently
checked-out tip and switch to it; git fails if the ref already exists. -/
def createBranch (s : RepoState) (name : String) : Except BuildError RepoState :=
  if name = "main" ∨ s.branchTips.any (fun p => p.1 = name) then
    .error (.branchExists name)
  else
    .ok { s with branchTips := s.branchTips ++ [(name, s.tipOf s.currentRef)],
                 currentRef := name }

/-- `repo.index.commit(msg, author_date=ts, commit_date=ts)` on the
checked-out ref: single parent = the ref's tip; the ref advances. -/
def commitOn (s : RepoState) (msg : String) (ts : Nat) : RepoState × Nat :=
  let i := s.commits.length
  let c : Commit := ⟨i, msg, ts, ts, [s.tipOf s.currentRef]⟩
  (({ s with commits := s.commits ++ [c] }).setTip s.currentRef i, i)

/-- `repo.git.merge(branch, "--no-ff", m=msg, env=ts)` with `main` checked
out: a two-parent commit, first parent the integration tip, second parent
the branch tip; `main` advances, the branch ref does not. -/
def mergeIntoMain (s : RepoState) (branch : String) (msg : String) (ts : Nat) :
    RepoState × Nat :=
  let i := s.commits.length
  let c : Commit := ⟨i, msg, ts, ts, [s.mainTip, s.tipOf branch]⟩
  ({ s with commits := s.commits ++ [c], mainTip := i }, i)

/- ------------------------------------------------------------------ -/
/- Commit Graph Builder: `create_life_repo`, src/app.py lines 123-278. -/
/- ------------------------------------------------------------------ -/

/-- The `event_to_branch` lookup built at src/app.py lines 155-158: a dict
write per index per branch, so for an index listed by several entries the
last entry in plan order wins. -/
def event_to_branch (plan : List BranchEntry) (idx : Int) : Option BranchEntry :=
  plan.reverse.find? (fun b => b.events_on_branch.contains idx)

/-- The `branch_remaining` dict built at src/app.py lines 163-164: one
`set(events_on_branch)` per entry, keyed by name (a duplicated name
overwrites the earlier entry's set, as with any dict write). -/
def init_branch_remaining (plan : List BranchEntry) : List (String × List Int) :=
  plan.foldl (fun acc b => setAssoc acc b.name b.events_on_branch.dedup) []

/-- `branch_info.get("merges", True)` (src/app.py line 227). -/
def shouldMergeOf (b : BranchEntry) : Bool :=
  b.merges.getD true

/-- `branch_info.get("merge_message", f"Merge branch '{branch_name}'")`
(src/app.py line 230). -/
def mergeMessageOf (b : BranchEntry) : String :=
  b.merge_message.getD ("Merge branch \x27" ++ b.name ++ "\x27")

/-- One event of the sequenced timeline: the original input position, the
event, and its parsed date. -/
structure SeqEvent where
  orig : Nat
  ev : Event
  date : Nat
deriving Repr, DecidableEq

/-- `if event.get('keyword'): keyword_map[c.hexsha] = event['keyword']`
(src/app.py lines 219-220 and 255-256): record the keyword when truthy. -/
def addKeyword (s : RepoState) (cid : Nat) (kw : String) : RepoState :=
  if kw ≠ "" then { s with keyword_map := s.keyword_map ++ [(cid, kw)] } else s

@[simp] theorem addKeyword_commits (s : RepoState) (cid : Nat) (kw : String) :
    (addKeyword s cid kw).commits = s.commits := by
  unfold addKeyword; split <;> rfl

@[simp] theorem addKeyword_mainTip (s : RepoState) (cid : Nat) (kw : String) :
    (addKeyword s cid kw).mainTip = s.mainTip := by
  unfold addKeyword; split <;> rfl

@[simp] theorem addKeyword_branchTips (s : RepoState) (cid : Nat) (kw : String) :
    (addKeyword s cid kw).branchTips = s.branchTips := by
  unfold addKeyword; split <;> rfl

@[simp] theorem addKeyword_currentRef (s : RepoState) (cid : Nat) (kw : String) :
    (addKeyword s cid kw).currentRef = s.currentRef := by
  unfold addKeyword; split <;> rfl

@[simp] theorem addKeyword_created (s : RepoState) (cid : Nat) (kw : String) :
    (addKeyword s cid kw).created_branches = s.created_branches := by
  unfold addKeyword; split <;> rfl

@[simp] theorem addKeyword_remaining (s : RepoState) (cid : Nat) (kw : String) :
    (addKeyword s cid kw).branch_remaining = s.branch_remaining := by
  unfold addKeyword; split <;> rfl

@[simp] theorem addKeyword_branch_map (s : RepoState) (cid : Nat) (kw : String) :
    (addKeyword s cid kw).branch_map = s.branch_map := by
  unfold addKeyword; split <;> rfl

@[simp] theorem addKeyword_merge_commits (s : RepoState) (cid : Nat) (kw : String) :
    (addKeyword s cid kw).merge_commits = s.merge_commits := by
  unfold addKeyword; split <;> rfl

@[simp] theorem addKeyword_branch_order (s : RepoState) (cid : Nat) (kw : String) :
    (addKeyword s cid kw).branch_order = s.branch_order := by
  unfold addKeyword; split <;> rfl

/-- `if branch_name not in branch_order: branch_order.append(branch_name)`
(src/app.py lines 201-202). -/
def addBranchOrder (s : RepoState) (nm : String) : RepoState :=
  if nm ∈ s.branch_order then s else { s with branch_order := s.branch_order ++ [nm] }

@[simp] theorem addBranchOrder_commits (s : RepoState) (nm : String) :
    (addBranchOrder s nm).commits = s.commits := by
  unfold addBranchOrder; split <;> rfl

@[simp] theorem addBranchOrder_mainTip (s : RepoState) (nm : String) :
    (addBranchOrder s nm).mainTip = s.mainTip := by
  unfold addBranchOrder; split <;> rfl

@[simp] theorem addBranchOrder_branchTips (s : RepoState) (nm : String) :
    (addBranchOrder s nm).branchTips = s.branchTips := by
  unfold addBranchOrder; split <;> rfl

@[simp] theorem addBranchOrder_currentRef (s : RepoState) (nm : String) :
    (addBranchOrder s nm).currentRef = s.currentRef := by
  unfold addBranchOrder; split <;> rfl

@[simp] theorem addBranchOrder_created (s : RepoState) (nm : String) :
    (addBranchOrder s nm).created_branches = s.created_branches := by
  unfold addBranchOrder; split <;> rfl

@[simp] theorem addBranchOrder_remaining (s : RepoState) (nm : String) :
    (addBranchOrder s nm).branch_remaining = s.branch_remaining := by
  unfold addBranchOrder; split <;> rfl

@[simp] theorem addBranchOrder_branch_map (s : RepoState) (nm : String) :
    (addBranchOrder s nm).branch_map = s.branch_map := by
  unfold addBranchOrder; split <;> rfl

@[simp] theorem addBranchOrder_merge_commits (s : RepoState) (nm : String) :
    (addBranchOrder s nm).merge_commits = s.merge_commits := by
  unfold addBranchOrder; split <;> rfl

@[simp] theorem addBranchOrder_keyword_map (s : RepoState) (nm : String) :
    (addBranchOrder s nm).keyword_map = s.keyword_map := by
  unfold addBranchOrder; split <;> rfl

@[simp] theorem addBranchOrder_branch_order (s : RepoState) (nm : String) :
    (addBranchOrder s nm).branch_order =
      if nm ∈ s.branch_order then s.branch_order else s.branch_order ++ [nm] := by
  unfold addBranchOrder; split <;> simp [*]

/-- The body of the per-event loop of `create_life_repo`
(src/app.py lines 185-256): branch lookup; create-or-checkout the branch,
or checkout main; write and commit the event; record metadata; update the
branch's remaining set; merge back to main when the branch is exhausted and
merging. -/
def processEvent (plan : List BranchEntry) (s : RepoState) (orig : Nat)
    (ev : Event) (date : Nat) : Except BuildError RepoState :=
  match event_to_branch plan (orig : Int) with
  | some binfo =>
    let bname := binfo.name
    let afterCheckout : Except BuildError RepoState :=
      if bname ∈ s.created_branches then
        checkoutBranch s bname
      else
        match createBranch (checkoutMain s) bname with
        | .error e => .error e
        | .ok s1 =>
          let s2 := { s1 with created_branches := s1.created_branches ++ [bname] }
          .ok (addBranchOrder s2 bname)
    match afterCheckout with
    | .error e => .error e
    | .ok sA =>
      let p := commitOn sA ev.commit_message date
      let sB := p.1
      let cid := p.2
      let sC := { sB with branch_map := sB.branch_map ++ [(cid, bname)] }
      let sD := addKeyword sC cid ev.keyword
      let newRem := ((lookupA sD.branch_remaining bname).getD []).filter
          (fun j => j ≠ (orig : Int))
      let sE := { sD with branch_remaining := updateAssoc sD.branch_remaining bname newRem }
      if newRem.isEmpty && shouldMergeOf binfo then
        let sF := checkoutMain sE
        let q := mergeIntoMain sF bname (mergeMessageOf binfo) date
        .ok { q.1 with branch_map := q.1.branch_map ++ [(q.2, "main")],
                       merge_commits := q.1.merge_commits ++ [(q.2, bname)] }
      else
        .ok sE
  | none =>
    let s1 := checkoutMain s
    let p := commitOn s1 ev.commit_message date
    let sB := p.1
    let cid := p.2
    let sC := { sB with branch_map := sB.branch_map ++ [(cid, "main")] }
    .ok (addKeyword sC cid ev.keyword)

/-- Date resolution of the sequencer (`date_parser.parse(x[1]['date'])` on
each indexed event, in input order, as `list.sort(key=...)` evaluates its
keys): the first unparseable date raises. -/
def parseEvents (parse : String → Option Nat) :
    List (Nat × Event) → Except BuildError (List SeqEvent)
  | [] => .ok []
  | (i, e) :: rest =>
    match parse e.date with
    | none => .error (.badDate e.date)
    | some d =>
      match parseEvents parse rest with
      | .error err => .error err
      | .ok l => .ok (⟨i, e, d⟩ :: l)

/-- The comparison used to sort the timeline: ascending parsed date. -/
def seqLE (a b : SeqEvent) : Bool :=
  decide (a.date ≤ b.date)

/-- The Timeline Sequencer (src/app.py lines 148-152): index the events,
raise on an empty list, raise on an unparseable date, and stable-sort
ascending by parsed date (Python `list.sort` is stable). -/
def sequenceEvents (parse : String → Option Nat) (events : List Event) :
    Except BuildError (List SeqEvent) :=
  let indexed := events.enum
  if indexed.isEmpty then .error .noEvents
  else
    match parseEvents parse indexed with
    | .error e => .error e
    | .ok l => .ok (l.mergeSort seqLE)

/-- The loop over the sequenced timeline (src/app.py lines 185-256). -/
def buildLoop (plan : List BranchEntry) :
    RepoState → List SeqEvent → Except BuildError RepoState
  | s, [] => .ok s
  | s, se :: rest =>
    match processEvent plan s se.orig se.ev se.date with
    | .error e => .error e
    | .ok s1 => buildLoop plan s1 rest

/-- State after the initial commit (src/app.py lines 160-182): README
committed on main with the earliest event's date, `branch_map` seeded with
the initial commit, `branch_order = ["main"]`. -/
def initialState (plan : List BranchEntry) (firstDate : Nat) : RepoState :=
  { commits := [⟨0, "Initialize life story", firstDate, firstDate, []⟩],
    mainTip := 0,
    branchTips := [],
    currentRef := "main",
    created_branches := [],
    branch_remaining := init_branch_remaining plan,
    branch_map := [(0, "main")],
    merge_commits := [],
    keyword_map := [],
    branch_order := ["main"] }

/-- `create_life_repo` (src/app.py lines 123-278): sequence the events,
make the initial commit at the earliest event's date, run the per-event
loop, and finish checked out on main.  Any raised error propagates (after
the Python code deletes the partial repository directory); no repository
state is produced on failure. -/
def create_life_repo (parse : String → Option Nat) (events : List Event)
    (branch_structure : List BranchEntry) : Except BuildError RepoState :=
  match sequenceEvents parse events with
  | .error e => .error e
  | .ok [] => .error .noEvents
  | .ok (first :: rest) =>
    match buildLoop branch_structure (initialState branch_structure first.date)
        (first :: rest) with
    | .error e => .error e
    | .ok s => .ok (checkoutMain s)

/- Sequencer lemmas -/

theorem seqLE_trans : ∀ (a b c : SeqEvent), seqLE a b → seqLE b c → seqLE a c := by
  intro a b c hab hbc
  simp only [seqLE, decide_eq_true_eq] at *
  omega

theorem seqLE_total : ∀ (a b : SeqEvent), seqLE a b || seqLE b a := by
  intro a b
  simp only [seqLE]
  by_cases h : a.date ≤ b.date
  · simp [h]
  · simp [Nat.le_of_lt (Nat.lt_of_not_le h)]

/-- The sequenced timeline before sorting: each event tagged with its
original index and parsed date, in input order. -/
def indexedParsed (parse : String → Option Nat) (events : List Event) : List SeqEvent :=
  events.enum.map (fun p => ⟨p.1, p.2, (parse p.2.date).getD 0⟩)

theorem parseEvents_ok (parse : String → Option Nat) :
    ∀ (l : List (Nat × Event)), (∀ p ∈ l, (parse p.2.date).isSome) →
      parseEvents parse l = .ok (l.map (fun p => ⟨p.1, p.2, (parse p.2.date).getD 0⟩)) := by
  intro l
  induction l with
  | nil => intro _; simp [parseEvents]
  | cons p rest ih =>
    intro hp
    obtain ⟨d, hd⟩ := Option.isSome_iff_exists.mp (hp p (List.mem_cons_self p rest))
    obtain ⟨i, e⟩ := p
    simp only at hd
    rw [parseEvents, hd, ih (fun q hq => hp q (List.mem_cons_of_mem _ hq))]
    simp [hd]

theorem parseEvents_error (parse : String → Option Nat) :
    ∀ (l : List (Nat × Event)) (e : Event),
      (l.map Prod.snd).find? (fun ev => (parse ev.date).isNone) = some e →
      parseEvents parse l = .error (.badDate e.date) := by
  intro l
  induction l with
  | nil => intro e he; simp at he
  | cons p rest ih =>
    intro e he
    obtain ⟨i, ev⟩ := p
    simp only [List.map_cons] at he
    by_cases hn : (parse ev.date).isNone
    · rw [List.find?_cons_of_pos _ (by simpa using hn)] at he
      cases he
      simp [parseEvents, Option.isNone_iff_eq_none.mp hn]
    · rw [List.find?_cons_of_neg _ (by simpa using hn)] at he
      cases hpd : parse ev.date with
      | none => simp [hpd] at hn
      | some d => simp [parseEvents, hpd, ih e he]

theorem sequenceEvents_ok (parse : String → Option Nat) (events : List Event)
    (hne : events ≠ []) (hp : ∀ e ∈ events, (parse e.date).isSome) :
    sequenceEvents parse events = .ok ((indexedParsed parse events).mergeSort seqLE) := by
  have hnil : events.enum.isEmpty = false := by
    cases events with
    | nil => exact absurd rfl hne
    | cons e rest => simp [List.enum]
  have hall : ∀ p ∈ events.enum, (parse p.2.date).isSome := by
    intro p hmem
    apply hp
    have : p.2 ∈ events.enum.map Prod.snd := List.mem_map_of_mem Prod.snd hmem
    rwa [List.enum_map_snd] at this
  rw [sequenceEvents]
  simp only [hnil, Bool.false_eq_true, if_false]
  rw [parseEvents_ok parse events.enum hall]
  rfl

/-- Stability of the timeline sort: the subsequence of events carrying any
fixed date is left in input order. -/
theorem mergeSort_filter_date (l : List SeqEvent) (d : Nat) :
    (l.mergeSort seqLE).filter (fun se => decide (se.date = d)) =
      l.filter (fun se => decide (se.date = d)) := by
  set p : SeqEvent → Bool := fun se => decide (se.date = d) with hp
  have hpair : (l.filter p).Pairwise (fun a b => seqLE a b = true) := by
    apply List.pairwise_of_forall_mem_list
    intro a ha b hb
    have ha' : a.date = d := by simpa [hp] using List.of_mem_filter ha
    have hb' : b.date = d := by simpa [hp] using List.of_mem_filter hb
    simp [seqLE, ha', hb']
  have hsub : (l.filter p).Sublist (l.mergeSort seqLE) :=
    List.sublist_mergeSort seqLE_trans seqLE_total hpair (List.filter_sublist l)
  have hsub2 : (l.filter p).Sublist ((l.mergeSort seqLE).filter p) := by
    have := hsub.filter p
    rwa [List.filter_filter, (by funext a; simp : (fun a => p a && p a) = p)] at this
  have hlen : ((l.mergeSort seqLE).filter p).length = (l.filter p).length :=
    ((List.mergeSort_perm l seqLE).filter p).length_eq
  exact (hsub2.eq_of_length hlen.symm).symm

/-- C5: for every non-empty event list with parseable dates, the timeline
sequencer succeeds and orders the events ascending by parsed date, keeping
each event paired with its `original_index` (the output tagged pairs are a
permutation of `events.enum`), and events with equal dates keep their
original relative order (stable sort), so the builder processes one
deterministic sequence. -/
theorem C5_sequencer_sorted_stable (parse : String → Option Nat) (events : List Event)
    (hne : events ≠ []) (hp : ∀ e ∈ events, (parse e.date).isSome) :
    ∃ seq, sequenceEvents parse events = .ok seq ∧
      (seq.map (fun se => (se.orig, se.ev))).Perm events.enum ∧
      seq.Pairwise (fun a b => a.date ≤ b.date) ∧
      (∀ se ∈ seq, parse se.ev.date = some se.date) ∧
      ∀ d : Nat, seq.filter (fun se => decide (se.date = d)) =
        (indexedParsed parse events).filter (fun se => decide (se.date = d)) := by
  refine ⟨(indexedParsed parse events).mergeSort seqLE,
    sequenceEvents_ok parse events hne hp, ?_, ?_, ?_, ?_⟩
  · have h1 : ((indexedParsed parse events).mergeSort seqLE).Perm
        (indexedParsed parse events) := List.mergeSort_perm _ _
    have h2 := h1.map (fun se => (se.orig, se.ev))
    have h3 : (indexedParsed parse events).map (fun se => (se.orig, se.ev)) = events.enum := by
      simp only [indexedParsed, List.map_map]
      have : ((fun se : SeqEvent => (se.orig, se.ev)) ∘
          fun p : Nat × Event => (⟨p.1, p.2, (parse p.2.date).getD 0⟩ : SeqEvent)) =
          fun p => p := by
        funext p
        rfl
      rw [this]
      exact List.map_id events.enum
    rwa [h3] at h2
  · exact (List.sorted_mergeSort seqLE_trans seqLE_total _).imp
      (fun h => by simpa [seqLE] using h)
  · intro se hse
    have : se ∈ indexedParsed parse events := List.mem_mergeSort.mp hse
    simp only [indexedParsed, List.mem_map] at this
    obtain ⟨⟨i, e⟩, hmem, heq⟩ := this
    have he : e ∈ events := by
      have : e ∈ events.enum.map Prod.snd := List.mem_map_of_mem Prod.snd hmem
      rwa [List.enum_map_snd] at this
    obtain ⟨dv, hdv⟩ := Option.isSome_iff_exists.mp (hp e he)
    rw [← heq]
    simp [hdv]
  · intro d
    exact mergeSort_filter_date (indexedParsed parse events) d

/-- C7: building from an event list of length zero, or from an event list
containing an event whose date cannot be parsed, fails with an error for the
whole build: the builder raises (`ValueError` or the date parser's
exception; here the corresponding `BuildError`) and no repository state is
produced (the Python code additionally deletes the partially-created
repository directory before re-raising). -/
theorem C7_fatal_input_errors (parse : String → Option Nat)
    (plan : List BranchEntry) :
    create_life_repo parse [] plan = .error .noEvents ∧
    ∀ (events : List Event) (e : Event),
      events.find? (fun ev => (parse ev.date).isNone) = some e →
      create_life_repo parse events plan = .error (.badDate e.date) := by
  constructor
  · rfl
  · intro events e he
    have hnil : events.enum.isEmpty = false := by
      cases events with
      | nil => simp at he
      | cons x rest => simp [List.enum]
    have hmap : (events.enum.map Prod.snd).find? (fun ev => (parse ev.date).isNone) = some e := by
      rwa [List.enum_map_snd]
    rw [create_life_repo, sequenceEvents]
    simp only [hnil, Bool.false_eq_true, if_false]
    rw [parseEvents_error parse events.enum e hmap]

/- ------------------------------------------------------------------ -/
/- Bookkeeping vocabulary for the build invariant.                    -/
/- ------------------------------------------------------------------ -/

/-- Original indices of the already-processed prefix of the sequenced
timeline, as JSON integers. -/
def pastIdx (past : List SeqEvent) : List Int :=
  past.map (fun se => (se.orig : Int))

/-- A plan entry is finished once all its assigned indices are processed. -/
def finished (past : List SeqEvent) (b : BranchEntry) : Bool :=
  b.events_on_branch.all (fun i => (pastIdx past).contains i)

/-- All ref tips of the repository: main plus every branch. -/
def allRefTips (s : RepoState) : List Nat :=
  s.mainTip :: s.branchTips.map (fun p => p.2)

/-- Parent ids of the commit with a given id (empty when no such commit
is stored). -/
def parentsOf (commits : List Commit) (j : Nat) : List Nat :=
  ((commits.find? (fun c => c.id = j)).map (fun c => c.parents)).getD []

/-- Reachability along parent edges from a set of root commit ids. -/
inductive Reaches (commits : List Commit) (roots : List Nat) : Nat → Prop where
  | root {i : Nat} : i ∈ roots → Reaches commits roots i
  | parent {i j : Nat} : Reaches commits roots j → i ∈ parentsOf commits j →
      Reaches commits roots i

/-- One breadth-first expansion of a frontier along parent edges. -/
def reachStep (commits : List Commit) (s : List Nat) : List Nat :=
  (s ++ s.flatMap (parentsOf commits)).dedup

/-- Fuelled breadth-first closure: the set of commit ids reachable from the
roots in at most `fuel` parent steps. -/
def reachSet (commits : List Commit) : Nat → List Nat → List Nat
  | 0, roots => roots.dedup
  | n + 1, roots => reachSet commits n (reachStep commits roots)

/- Association-list lemmas -/

theorem lookupA_eq_some_of_mem {α β : Type} [DecidableEq α]
    {l : List (α × β)} (hnd : (l.map Prod.fst).Nodup) {p : α × β} (hp : p ∈ l) :
    lookupA l p.1 = some p.2 := by
  induction l with
  | nil => simp at hp
  | cons q rest ih =>
    rcases List.mem_cons.mp hp with h | h
    · subst h
      simp [lookupA]
    · have hne : q.1 ≠ p.1 := by
        intro he
        have : p.1 ∈ rest.map Prod.fst := List.mem_map_of_mem Prod.fst h
        rw [← he] at this
        exact (List.nodup_cons.mp (by simpa using hnd)).1 this
      rw [lookupA, if_neg hne]
      exact ih (List.nodup_cons.mp (by simpa using hnd)).2 h

theorem lookupA_map_pair {β : Type} (f : BranchEntry → β) (plan : List BranchEntry)
    (hnd : (plan.map (fun b => b.name)).Nodup) {b : BranchEntry} (hb : b ∈ plan) :
    lookupA (plan.map (fun x => (x.name, f x))) b.name = some (f b) := by
  have h1 : ((plan.map (fun x => (x.name, f x))).map Prod.fst).Nodup := by
    simpa [List.map_map, Function.comp] using hnd
  have h2 : (b.name, f b) ∈ plan.map (fun x => (x.name, f x)) :=
    List.mem_map_of_mem _ hb
  exact lookupA_eq_some_of_mem h1 h2

theorem updateAssoc_map_fst {α β : Type} [DecidableEq α] (l : List (α × β)) (k : α) (v : β) :
    (updateAssoc l k v).map Prod.fst = l.map Prod.fst := by
  induction l with
  | nil => rfl
  | cons p rest ih =>
    by_cases h : p.1 = k
    · simp [updateAssoc, h] at ih ⊢
      exact ih
    · simp [updateAssoc, h] at ih ⊢
      exact ih

theorem lookupA_updateAssoc_self {α β : Type} [DecidableEq α]
    {l : List (α × β)} {k : α} (hk : k ∈ l.map Prod.fst) (v : β) :
    lookupA (updateAssoc l k v) k = some v := by
  induction l with
  | nil => simp at hk
  | cons p rest ih =>
    simp only [updateAssoc, List.map_cons]
    by_cases h : p.1 = k
    · rw [if_pos h]
      simp [lookupA]
    · rw [if_neg h, lookupA, if_neg h]
      show lookupA (updateAssoc rest k v) k = some v
      apply ih
      rcases List.mem_cons.mp (by simpa only [List.map_cons] using hk) with h' | h'
      · exact absurd h'.symm h
      · exact h' 

/- Reachability lemmas -/

theorem Reaches.mono_roots {commits : List Commit} {roots roots' : List Nat}
    (hsub : ∀ r ∈ roots, r ∈ roots') {i : Nat} (h : Reaches commits roots i) :
    Reaches commits roots' i := by
  induction h with
  | root hi => exact Reaches.root (hsub _ hi)
  | parent _ hp ih => exact Reaches.parent ih hp

theorem parentsOf_append {commits l : List Commit} {j i : Nat}
    (hi : i ∈ parentsOf commits j) :
    parentsOf (commits ++ l) j = parentsOf commits j := by
  unfold parentsOf at hi ⊢
  cases hfind : commits.find? (fun c => c.id = j) with
  | none => rw [hfind] at hi; simp at hi
  | some c =>
    rw [List.find?_append, hfind]
    rfl

theorem Reaches.append {commits l : List Commit} {roots : List Nat} {i : Nat}
    (h : Reaches commits roots i) : Reaches (commits ++ l) roots i := by
  induction h with
  | root hi => exact Reaches.root hi
  | parent _ hp ih =>
    exact Reaches.parent ih (by rwa [parentsOf_append hp])

theorem Reaches.transfer {commits : List Commit} {roots roots' : List Nat}
    (hr : ∀ r ∈ roots, Reaches commits roots' r) {i : Nat}
    (h : Reaches commits roots i) : Reaches commits roots' i := by
  induction h with
  | root hi => exact hr _ hi
  | parent _ hp ih => exact Reaches.parent ih hp

theorem mem_reachStep_self {commits : List Commit} {s : List Nat} {x : Nat}
    (hx : x ∈ s) : x ∈ reachStep commits s := by
  simp only [reachStep, List.mem_dedup, List.mem_append]
  exact Or.inl hx

theorem mem_reachStep_parent {commits : List Commit} {s : List Nat} {j i : Nat}
    (hj : j ∈ s) (hi : i ∈ parentsOf commits j) : i ∈ reachStep commits s := by
  simp only [reachStep, List.mem_dedup, List.mem_append, List.mem_flatMap]
  exact Or.inr ⟨j, hj, hi⟩

theorem mem_reachSet_of_mem (commits : List Commit) :
    ∀ (n : Nat) (roots : List Nat) {x : Nat}, x ∈ roots → x ∈ reachSet commits n roots := by
  intro n
  induction n with
  | zero => intro roots x hx; simpa [reachSet] using hx
  | succ n ih =>
    intro roots x hx
    rw [reachSet]
    exact ih _ (mem_reachStep_self hx)

theorem reachSet_fuel_succ (commits : List Commit) :
    ∀ (n : Nat) (roots : List Nat) {x : Nat},
      x ∈ reachSet commits n roots → x ∈ reachSet commits (n + 1) roots := by
  intro n
  induction n with
  | zero =>
    intro roots x hx
    simp only [reachSet] at hx ⊢
    exact List.mem_dedup.mpr (mem_reachStep_self (List.mem_dedup.mp hx))
  | succ n ih =>
    intro roots x hx
    rw [reachSet] at hx ⊢
    exact ih _ hx

theorem reachSet_fuel_mono (commits : List Commit) {k m : Nat} (hkm : k ≤ m) :
    ∀ (roots : List Nat) {x : Nat},
      x ∈ reachSet commits k roots → x ∈ reachSet commits m roots := by
  induction hkm with
  | refl => intro roots x hx; exact hx
  | step _ ih =>
    intro roots x hx
    exact reachSet_fuel_succ commits _ roots (ih roots hx)

theorem reachSet_parent_step (commits : List Commit) :
    ∀ (k : Nat) (roots : List Nat) {j i : Nat},
      j ∈ reachSet commits k roots → i ∈ parentsOf commits j →
      i ∈ reachSet commits (k + 1) roots := by
  intro k
  induction k with
  | zero =>
    intro roots j i hj hi
    simp only [reachSet] at hj ⊢
    exact List.mem_dedup.mpr (mem_reachStep_parent (List.mem_dedup.mp hj) hi)
  | succ k ih =>
    intro roots j i hj hi
    rw [reachSet] at hj ⊢
    exact ih _ hj hi

theorem parentsOf_lt {commits : List Commit}
    (hpar : ∀ c ∈ commits, ∀ p ∈ c.parents, p < c.id) (j : Nat) :
    ∀ i ∈ parentsOf commits j, i < j := by
  intro i hi
  unfold parentsOf at hi
  cases hfind : commits.find? (fun c => c.id = j) with
  | none => rw [hfind] at hi; simp at hi
  | some c =>
    rw [hfind] at hi
    have hi' : i ∈ c.parents := hi
    have hcj : c.id = j := by simpa using List.find?_some hfind
    have := hpar c (List.mem_of_find?_eq_some hfind) i hi'
    omega

theorem reaches_mem_reachSet {commits : List Commit} {roots : List Nat} {N : Nat}
    (hpar : ∀ c ∈ commits, ∀ p ∈ c.parents, p < c.id)
    (hroots : ∀ r ∈ roots, r < N) {i : Nat} (h : Reaches commits roots i) :
    i ∈ reachSet commits N roots := by
  have key : ∀ {x : Nat}, Reaches commits roots x →
      ∃ k, x ∈ reachSet commits k roots ∧ k + x < N := by
    intro x hx
    induction hx with
    | root hr =>
      exact ⟨0, by simpa [reachSet] using hr, by have := hroots _ hr; omega⟩
    | parent _ hp ih =>
      obtain ⟨k, hk, hkN⟩ := ih
      rename_i i' j' _
      have hij : i' < j' := parentsOf_lt hpar j' i' hp
      exact ⟨k + 1, reachSet_parent_step commits k roots hk hp, by omega⟩
  obtain ⟨k, hk, hkN⟩ := key h
  exact reachSet_fuel_mono commits (by omega) roots hk

/- ------------------------------------------------------------------ -/
/- Plan well-formedness and misc list lemmas                          -/
/- ------------------------------------------------------------------ -/

/-- The assumptions the builder is run under: the plan passed validation
(entry sizes, index ranges, pairwise disjointness — exactly what
`design_branch_structure` guarantees, see `C3_validator_accepts_exactly`)
and the data-model invariants on names (`name` is a unique label, §3 of the
spec, distinct from the integration line's reserved name `main`). -/
def PlanWF (plan : List BranchEntry) (n : Nat) : Prop :=
  (∀ b ∈ plan, 2 ≤ b.events_on_branch.length) ∧
  (∀ b ∈ plan, ∀ i ∈ b.events_on_branch, 0 ≤ i ∧ i < (n : Int)) ∧
  plan.Pairwise (fun a b => ∀ i ∈ a.events_on_branch, i ∉ b.events_on_branch) ∧
  (plan.map (fun b => b.name)).Nodup ∧
  (∀ b ∈ plan, b.name ≠ "main")

theorem name_inj_of_nodup {plan : List BranchEntry}
    (hnd : (plan.map (fun b => b.name)).Nodup) :
    ∀ x ∈ plan, ∀ y ∈ plan, x.name = y.name → x = y := by
  induction plan with
  | nil => intro x hx; simp at hx
  | cons a rest ih =>
    intro x hx y hy hxy
    simp only [List.map_cons, List.nodup_cons] at hnd
    rcases List.mem_cons.mp hx with hx1 | hx1
    · rcases List.mem_cons.mp hy with hy1 | hy1
      · rw [hx1, hy1]
      · exfalso
        apply hnd.1
        have hmem : y.name ∈ rest.map (fun b => b.name) := List.mem_map_of_mem _ hy1
        rw [← hxy, hx1] at hmem
        exact hmem
    · rcases List.mem_cons.mp hy with hy1 | hy1
      · exfalso
        apply hnd.1
        have hmem : x.name ∈ rest.map (fun b => b.name) := List.mem_map_of_mem _ hx1
        rw [hxy, hy1] at hmem
        exact hmem
      · exact ih hnd.2 x hx1 y hy1 hxy

theorem disjoint_unique {plan : List BranchEntry}
    (hdisj : plan.Pairwise (fun a b => ∀ i ∈ a.events_on_branch, i ∉ b.events_on_branch)) :
    ∀ x ∈ plan, ∀ y ∈ plan, ∀ i : Int,
      i ∈ x.events_on_branch → i ∈ y.events_on_branch → x = y := by
  induction plan with
  | nil => intro x hx; simp at hx
  | cons a rest ih =>
    intro x hx y hy i hxi hyi
    obtain ⟨ha, hrest⟩ := List.pairwise_cons.mp hdisj
    rcases List.mem_cons.mp hx with hx1 | hx1
    · rcases List.mem_cons.mp hy with hy1 | hy1
      · rw [hx1, hy1]
      · have hxi2 : i ∈ a.events_on_branch := by rw [← hx1]; exact hxi
        exact absurd hyi (ha y hy1 i hxi2)
    · rcases List.mem_cons.mp hy with hy1 | hy1
      · have hyi2 : i ∈ a.events_on_branch := by rw [← hy1]; exact hyi
        exact absurd hxi (ha x hx1 i hyi2)
      · exact ih hrest x hx1 y hy1 i hxi hyi

theorem event_to_branch_some {plan : List BranchEntry} {i : Int} {b : BranchEntry}
    (h : event_to_branch plan i = some b) :
    b ∈ plan ∧ i ∈ b.events_on_branch := by
  unfold event_to_branch at h
  exact ⟨List.mem_reverse.mp (List.mem_of_find?_eq_some h),
    by simpa using List.find?_some h⟩

theorem event_to_branch_none {plan : List BranchEntry} {i : Int}
    (h : event_to_branch plan i = none) :
    ∀ b ∈ plan, i ∉ b.events_on_branch := by
  unfold event_to_branch at h
  intro b hb hib
  have := List.find?_eq_none.mp h b (List.mem_reverse.mpr hb)
  simp [hib] at this

theorem event_to_branch_eq {plan : List BranchEntry} {n : Nat} (hWF : PlanWF plan n)
    {i : Int} {b : BranchEntry} (hb : b ∈ plan) (hib : i ∈ b.events_on_branch) :
    event_to_branch plan i = some b := by
  obtain ⟨-, -, hdisj, -, -⟩ := hWF
  unfold event_to_branch
  cases hfind : plan.reverse.find? (fun x => x.events_on_branch.contains i) with
  | none =>
    have := List.find?_eq_none.mp hfind b (List.mem_reverse.mpr hb)
    simp [hib] at this
  | some x =>
    have hxplan : x ∈ plan := List.mem_reverse.mp (List.mem_of_find?_eq_some hfind)
    have hxi : i ∈ x.events_on_branch := by simpa using List.find?_some hfind
    exact congrArg some (disjoint_unique hdisj x hxplan b hb i hxi hib)

/-- Flipping a predicate from false to true at exactly one element of a
duplicate-free list inserts that element into the filtered list, up to
permutation. -/
theorem filter_flip_perm {α : Type} [DecidableEq α] :
    ∀ (l : List α), l.Nodup → ∀ (b : α), b ∈ l → ∀ (p q : α → Bool),
      p b = false → q b = true → (∀ x ∈ l, x ≠ b → q x = p x) →
      (l.filter q).Perm (b :: l.filter p) := by
  intro l
  induction l with
  | nil => intro _ b hb; simp at hb
  | cons a rest ih =>
    intro hnd b hb p q hpb hqb hother
    rcases List.mem_cons.mp hb with hab | hb'
    · subst hab
      have hrest : rest.filter q = rest.filter p := by
        apply List.filter_congr
        intro x hx
        exact hother x (List.mem_cons_of_mem _ hx)
          (fun he => (List.nodup_cons.mp hnd).1 (he ▸ hx))
      rw [List.filter_cons, List.filter_cons, hqb, hpb, hrest]
      simp
    · have hab : a ≠ b := fun he => (List.nodup_cons.mp hnd).1 (he ▸ hb')
      have hqa : q a = p a := hother a (List.mem_cons_self a rest) hab
      have hrec := ih (List.nodup_cons.mp hnd).2 b hb' p q hpb hqb
        (fun x hx hxb => hother x (List.mem_cons_of_mem a hx) hxb)
      rw [List.filter_cons, List.filter_cons, hqa]
      cases hpa : p a with
      | false => simpa using hrec
      | true =>
        simp only [if_pos rfl]
        exact (hrec.cons a).trans (List.Perm.swap b a _)

theorem foldl_setAssoc_eq :
    ∀ (plan : List BranchEntry) (acc : List (String × List Int)),
      (plan.map (fun b => b.name)).Nodup →
      (∀ b ∈ plan, b.name ∉ acc.map Prod.fst) →
      plan.foldl (fun acc b => setAssoc acc b.name b.events_on_branch.dedup) acc =
        acc ++ plan.map (fun b => (b.name, b.events_on_branch.dedup)) := by
  intro plan
  induction plan with
  | nil => intro acc _ _; simp
  | cons c rest ih =>
    intro acc hnd hacc
    simp only [List.map_cons, List.nodup_cons] at hnd
    simp only [List.foldl_cons, List.map_cons]
    have hfresh : acc.any (fun p => p.1 = c.name) = false := by
      rw [List.any_eq_false]
      intro p hp
      simp only [decide_eq_true_eq]
      intro he
      exact hacc c (List.mem_cons_self c rest) (he ▸ List.mem_map_of_mem Prod.fst hp)
    rw [setAssoc, hfresh]
    simp only [Bool.false_eq_true, if_false]
    rw [ih (acc ++ [(c.name, c.events_on_branch.dedup)]) hnd.2 ?_]
    · simp
    · intro b hb
      simp only [List.map_append, List.mem_append]
      rintro (h | h)
      · exact hacc b (List.mem_cons_of_mem c hb) h
      · simp only [List.map_cons, List.map_nil, List.mem_singleton] at h
        have hmem : b.name ∈ rest.map (fun x => x.name) := List.mem_map_of_mem _ hb
        rw [h] at hmem
        exact hnd.1 hmem

/-- `set(events_on_branch)` per entry, under unique names: the
`branch_remaining` dict in plan order. -/
theorem init_branch_remaining_eq (plan : List BranchEntry)
    (hnd : (plan.map (fun b => b.name)).Nodup) :
    init_branch_remaining plan =
      plan.map (fun b => (b.name, b.events_on_branch.dedup)) := by
  unfold init_branch_remaining
  simpa using foldl_setAssoc_eq plan [] hnd (by simp)

/- More association-list lemmas -/

theorem any_fst_eq_iff {α β : Type} [DecidableEq α] (l : List (α × β)) (k : α) :
    l.any (fun p => p.1 = k) = true ↔ k ∈ l.map Prod.fst := by
  constructor
  · intro h
    obtain ⟨p, hp, he⟩ := List.any_eq_true.mp h
    exact (by simpa using he : p.1 = k) ▸ List.mem_map_of_mem Prod.fst hp
  · intro h
    obtain ⟨p, hp, he⟩ := List.mem_map.mp h
    exact List.any_eq_true.mpr ⟨p, hp, by simp [he]⟩

theorem lookupA_append_fresh {α β : Type} [DecidableEq α]
    {l : List (α × β)} {k : α} (hk : k ∉ l.map Prod.fst) (v : β) :
    lookupA (l ++ [(k, v)]) k = some v := by
  induction l with
  | nil => simp [lookupA]
  | cons p rest ih =>
    have hne : p.1 ≠ k := by
      intro he
      exact hk (by simp [← he])
    rw [List.cons_append, lookupA, if_neg hne]
    exact ih (fun hmem => hk (by simp [hmem]))

theorem updateAssoc_append_fresh {α β : Type} [DecidableEq α]
    {l : List (α × β)} {k : α} (hk : k ∉ l.map Prod.fst) (v w : β) :
    updateAssoc (l ++ [(k, v)]) k w = l ++ [(k, w)] := by
  induction l with
  | nil => simp [updateAssoc]
  | cons p rest ih =>
    have hne : p.1 ≠ k := by
      intro he
      exact hk (by simp [← he])
    simp only [List.cons_append, updateAssoc, List.map_cons, if_neg hne] at ih ⊢
    congr 1
    exact ih (fun hmem => hk (by simp [hmem]))

theorem updateAssoc_not_mem {α β : Type} [DecidableEq α]
    {l : List (α × β)} {k : α} (hk : k ∉ l.map Prod.fst) (v : β) :
    updateAssoc l k v = l := by
  induction l with
  | nil => rfl
  | cons p rest ih =>
    have hne : p.1 ≠ k := by
      intro he
      exact hk (by simp [← he])
    simp only [updateAssoc, List.map_cons, if_neg hne] at ih ⊢
    congr 1
    exact ih (fun hmem => hk (by simp [hmem]))

/- ------------------------------------------------------------------ -/
/- The build invariant                                                -/
/- ------------------------------------------------------------------ -/

/-- What the builder guarantees for one merging branch entry `b` once it is
exhausted: the merge commit sits immediately after the commit of the
branch's last (in sequenced order) event, has that event's timestamp as
both of its timestamps, carries the entry's merge message, and its two
parents are the integration tip at merge time (the largest `main`-labelled
commit id below the merge) and the branch tip (the last branch commit);
exactly one merge commit refers to `b`. -/
def MergeShape (b : BranchEntry) (past : List SeqEvent) (s : RepoState) : Prop :=
  ∃ (pre : List Commit) (c mc : Commit) (post : List Commit) (lev : SeqEvent) (p : Nat),
    s.commits = pre ++ c :: mc :: post ∧
    (past.filter (fun se => b.events_on_branch.contains ((se.orig : Int)))).getLast? =
      some lev ∧
    c.message = lev.ev.commit_message ∧
    c.commit_ts = lev.date ∧
    c.parents.length = 1 ∧
    mc.message = mergeMessageOf b ∧
    mc.author_ts = lev.date ∧
    mc.commit_ts = lev.date ∧
    mc.parents = [p, c.id] ∧
    (p, "main") ∈ s.branch_map ∧
    (∀ q ∈ s.branch_map, q.2 = "main" → q.1 < mc.id → q.1 ≤ p) ∧
    s.merge_commits.filter (fun x => x.2 = b.name) = [(mc.id, b.name)]

/-- The loop invariant of the Commit Graph Builder: after processing `past`
(with `future` still pending) the repository and its out-of-band metadata
are in the state the spec describes. -/
structure BuildInv (plan : List BranchEntry) (firstDate : Nat)
    (past future : List SeqEvent) (s : RepoState) : Prop where
  ids : s.commits.map (fun c => c.id) = List.range s.commits.length
  count : s.commits.length = 1 + past.length + s.merge_commits.length
  parentsSmall : ∀ c ∈ s.commits, ∀ p ∈ c.parents, p < c.id
  tsMono : (s.commits.map (fun c => c.commit_ts)).Pairwise (fun a b => a ≤ b)
  tsUB : ∀ c ∈ s.commits, ∀ se ∈ future, c.commit_ts ≤ se.date
  authorEq : ∀ c ∈ s.commits, c.author_ts = c.commit_ts
  mainInMap : (s.mainTip, "main") ∈ s.branch_map
  mainMax : ∀ q ∈ s.branch_map, q.2 = "main" → q.1 ≤ s.mainTip
  tipsKeys : s.branchTips.map Prod.fst = s.created_branches
  createdNodup : s.created_branches.Nodup
  tipsBound : ∀ t ∈ s.branchTips, t.2 < s.commits.length
  createdSub : ∀ nm ∈ s.created_branches, ∃ b ∈ plan, b.name = nm
  createdOf : ∀ b ∈ plan, (∃ i ∈ b.events_on_branch, i ∈ pastIdx past) →
      b.name ∈ s.created_branches
  remaining : s.branch_remaining = plan.map (fun b =>
      (b.name, b.events_on_branch.dedup.filter (fun i => !((pastIdx past).contains i))))
  branchMapIds : s.branch_map.map Prod.fst = s.commits.map (fun c => c.id)
  mergeNames : (s.merge_commits.map Prod.snd).Perm
      ((plan.filter (fun b => shouldMergeOf b && finished past b)).map (fun b => b.name))
  mergeIds : s.merge_commits.map Prod.fst =
      (s.commits.filter (fun c => c.parents.length = 2)).map (fun c => c.id)
  initUnique : s.commits.filter (fun c => c.parents.length = 0) =
      [⟨0, "Initialize life story", firstDate, firstDate, []⟩]
  eventTrace : (s.commits.filter (fun c => c.parents.length = 1)).map
        (fun c => (c.message, c.author_ts, c.commit_ts)) =
      past.map (fun se => (se.ev.commit_message, se.date, se.date))
  reaches : ∀ c ∈ s.commits, Reaches s.commits (allRefTips s) c.id
  mergeShape : ∀ b ∈ plan, shouldMergeOf b = true → finished past b = true →
      MergeShape b past s

theorem BuildInv.mainLt {plan : List BranchEntry} {firstDate : Nat}
    {past future : List SeqEvent} {s : RepoState}
    (h : BuildInv plan firstDate past future s) : s.mainTip < s.commits.length := by
  have h1 : s.mainTip ∈ s.branch_map.map Prod.fst :=
    List.mem_map_of_mem Prod.fst h.mainInMap
  rw [h.branchMapIds, h.ids] at h1
  exact List.mem_range.mp h1

theorem BuildInv.idLt {plan : List BranchEntry} {firstDate : Nat}
    {past future : List SeqEvent} {s : RepoState}
    (h : BuildInv plan firstDate past future s) {c : Commit} (hc : c ∈ s.commits) :
    c.id < s.commits.length := by
  have h1 : c.id ∈ s.commits.map (fun c => c.id) := List.mem_map_of_mem _ hc
  rw [h.ids] at h1
  exact List.mem_range.mp h1

/- Normal forms of one builder step -/

theorem processEvent_none_eq (plan : List BranchEntry) (s : RepoState)
    (orig : Nat) (ev : Event) (date : Nat)
    (h : event_to_branch plan (orig : Int) = none) :
    processEvent plan s orig ev date = .ok
      { s with
        commits := s.commits ++
          [⟨s.commits.length, ev.commit_message, date, date, [s.mainTip]⟩],
        mainTip := s.commits.length,
        currentRef := "main",
        branch_map := s.branch_map ++ [(s.commits.length, "main")],
        keyword_map := if ev.keyword ≠ "" then
            s.keyword_map ++ [(s.commits.length, ev.keyword)]
          else s.keyword_map } := by
  rw [processEvent, h]
  simp only [commitOn, checkoutMain, RepoState.setTip, RepoState.tipOf, if_pos rfl,
    addKeyword]
  split <;> rfl

theorem processEvent_created_eq (plan : List BranchEntry) (s : RepoState)
    (orig : Nat) (ev : Event) (date : Nat) (b : BranchEntry)
    (h : event_to_branch plan (orig : Int) = some b)
    (hm : b.name ≠ "main")
    (hin : b.name ∈ s.created_branches)
    (hkeys : b.name ∈ s.branchTips.map Prod.fst) :
    processEvent plan s orig ev date =
      (if (((lookupA s.branch_remaining b.name).getD []).filter
            (fun j => j ≠ (orig : Int))).isEmpty && shouldMergeOf b then
        .ok { s with
          commits := s.commits ++
            [⟨s.commits.length, ev.commit_message, date, date,
              [(lookupA s.branchTips b.name).getD 0]⟩] ++
            [⟨s.commits.length + 1, mergeMessageOf b, date, date,
              [s.mainTip, s.commits.length]⟩],
          mainTip := s.commits.length + 1,
          branchTips := updateAssoc s.branchTips b.name s.commits.length,
          currentRef := "main",
          branch_map := s.branch_map ++
            [(s.commits.length, b.name)] ++ [(s.commits.length + 1, "main")],
          merge_commits := s.merge_commits ++ [(s.commits.length + 1, b.name)],
          keyword_map := if ev.keyword ≠ "" then
              s.keyword_map ++ [(s.commits.length, ev.keyword)]
            else s.keyword_map,
          branch_remaining := updateAssoc s.branch_remaining b.name
            (((lookupA s.branch_remaining b.name).getD []).filter
              (fun j => j ≠ (orig : Int))) }
      else
        .ok { s with
          commits := s.commits ++
            [⟨s.commits.length, ev.commit_message, date, date,
              [(lookupA s.branchTips b.name).getD 0]⟩],
          branchTips := updateAssoc s.branchTips b.name s.commits.length,
          currentRef := b.name,
          branch_map := s.branch_map ++ [(s.commits.length, b.name)],
          keyword_map := if ev.keyword ≠ "" then
              s.keyword_map ++ [(s.commits.length, ev.keyword)]
            else s.keyword_map,
          branch_remaining := updateAssoc s.branch_remaining b.name
            (((lookupA s.branch_remaining b.name).getD []).filter
              (fun j => j ≠ (orig : Int))) }) := by
  have hco : checkoutBranch s b.name = .ok { s with currentRef := b.name } := by
    rw [checkoutBranch, if_pos (Or.inr ((any_fst_eq_iff _ _).mpr hkeys))]
  simp only [processEvent, h, hin, hco, commitOn, RepoState.tipOf, RepoState.setTip,
    checkoutMain, mergeIntoMain, hm, lookupA_updateAssoc_self hkeys, Option.getD_some,
    List.length_append, List.length_cons, List.length_nil, if_true, if_false,
    ite_true, ite_false, addKeyword_commits, addKeyword_mainTip, addKeyword_branchTips,
    addKeyword_currentRef, addKeyword_created, addKeyword_remaining, addKeyword_branch_map,
    addKeyword_merge_commits, addKeyword_branch_order]
  split <;> (unfold addKeyword; split <;> rfl)

theorem processEvent_fresh_eq (plan : List BranchEntry) (s : RepoState)
    (orig : Nat) (ev : Event) (date : Nat) (b : BranchEntry)
    (h : event_to_branch plan (orig : Int) = some b)
    (hm : b.name ≠ "main")
    (hnot : b.name ∉ s.created_branches)
    (hkeys : b.name ∉ s.branchTips.map Prod.fst) :
    processEvent plan s orig ev date =
      (if (((lookupA s.branch_remaining b.name).getD []).filter
            (fun j => j ≠ (orig : Int))).isEmpty && shouldMergeOf b then
        .ok { s with
          commits := s.commits ++
            [⟨s.commits.length, ev.commit_message, date, date, [s.mainTip]⟩] ++
            [⟨s.commits.length + 1, mergeMessageOf b, date, date,
              [s.mainTip, s.commits.length]⟩],
          mainTip := s.commits.length + 1,
          branchTips := s.branchTips ++ [(b.name, s.commits.length)],
          currentRef := "main",
          created_branches := s.created_branches ++ [b.name],
          branch_order := if b.name ∈ s.branch_order then s.branch_order
            else s.branch_order ++ [b.name],
          branch_map := s.branch_map ++
            [(s.commits.length, b.name)] ++ [(s.commits.length + 1, "main")],
          merge_commits := s.merge_commits ++ [(s.commits.length + 1, b.name)],
          keyword_map := if ev.keyword ≠ "" then
              s.keyword_map ++ [(s.commits.length, ev.keyword)]
            else s.keyword_map,
          branch_remaining := updateAssoc s.branch_remaining b.name
            (((lookupA s.branch_remaining b.name).getD []).filter
              (fun j => j ≠ (orig : Int))) }
      else
        .ok { s with
          commits := s.commits ++
            [⟨s.commits.length, ev.commit_message, date, date, [s.mainTip]⟩],
          branchTips := s.branchTips ++ [(b.name, s.commits.length)],
          currentRef := b.name,
          created_branches := s.created_branches ++ [b.name],
          branch_order := if b.name ∈ s.branch_order then s.branch_order
            else s.branch_order ++ [b.name],
          branch_map := s.branch_map ++ [(s.commits.length, b.name)],
          keyword_map := if ev.keyword ≠ "" then
              s.keyword_map ++ [(s.commits.length, ev.keyword)]
            else s.keyword_map,
          branch_remaining := updateAssoc s.branch_remaining b.name
            (((lookupA s.branch_remaining b.name).getD []).filter
              (fun j => j ≠ (orig : Int))) }) := by
  have hcb : createBranch { s with currentRef := "main" } b.name =
      .ok { s with branchTips := s.branchTips ++ [(b.name, s.mainTip)],
                   currentRef := b.name } := by
    rw [createBranch, if_neg]
    · rfl
    · rintro (h1 | h1)
      · exact hm h1
      · exact hkeys ((any_fst_eq_iff _ _).mp h1)
  simp only [processEvent, h, hnot, hcb, commitOn, RepoState.tipOf, RepoState.setTip,
    checkoutMain, mergeIntoMain, hm, lookupA_append_fresh hkeys,
    updateAssoc_append_fresh hkeys, Option.getD_some,
    List.length_append, List.length_cons, List.length_nil, if_true, if_false,
    ite_true, ite_false, addKeyword_commits, addKeyword_mainTip, addKeyword_branchTips,
    addKeyword_currentRef, addKeyword_created, addKeyword_remaining, addKeyword_branch_map,
    addKeyword_merge_commits, addKeyword_branch_order, addBranchOrder_commits,
    addBranchOrder_mainTip, addBranchOrder_branchTips, addBranchOrder_currentRef,
    addBranchOrder_created, addBranchOrder_remaining, addBranchOrder_branch_map,
    addBranchOrder_merge_commits, addBranchOrder_keyword_map, addBranchOrder_branch_order]
  split <;> (unfold addKeyword; split <;> rfl)

/- Step-lemma support -/

theorem lookupA_mem {α β : Type} [DecidableEq α] :
    ∀ {l : List (α × β)} {k : α} {v : β}, lookupA l k = some v → (k, v) ∈ l := by
  intro l
  induction l with
  | nil => intro k v h; simp [lookupA] at h
  | cons p rest ih =>
    intro k v h
    rw [lookupA] at h
    split at h
    · rename_i heq
      cases h
      rw [← heq]
      exact List.mem_cons_self p rest
    · exact List.mem_cons_of_mem p (ih h)

theorem lookupA_isSome {α β : Type} [DecidableEq α] :
    ∀ {l : List (α × β)} {k : α}, k ∈ l.map Prod.fst → (lookupA l k).isSome := by
  intro l
  induction l with
  | nil => intro k h; simp at h
  | cons p rest ih =>
    intro k h
    rw [lookupA]
    split
    · rfl
    · rename_i hne
      apply ih
      rcases List.mem_cons.mp (by simpa only [List.map_cons] using h) with h1 | h1
      · exact absurd h1.symm hne
      · exact h1

theorem intContains_eq (l : List Int) (a : Int) : l.contains a = decide (a ∈ l) := by
  induction l with
  | nil => simp
  | cons x rest ih =>
    rw [List.contains_cons, ih]
    by_cases h1 : a = x <;> by_cases h2 : a ∈ rest <;> simp [h1, h2]

theorem pastIdx_append (past : List SeqEvent) (se : SeqEvent) :
    pastIdx (past ++ [se]) = pastIdx past ++ [(se.orig : Int)] := by
  simp [pastIdx]

theorem filter_remaining_snoc (l : List Int) (past : List SeqEvent) (se : SeqEvent) :
    (l.filter (fun i => !((pastIdx past).contains i))).filter
        (fun j => j ≠ (se.orig : Int)) =
      l.filter (fun i => !((pastIdx (past ++ [se])).contains i)) := by
  rw [List.filter_filter]
  apply List.filter_congr
  intro i _
  rw [pastIdx_append]
  by_cases h1 : i ∈ pastIdx past <;> by_cases h2 : i = (se.orig : Int) <;>
    simp [h1, h2]

theorem all_congr_list {α : Type} {l : List α} {p q : α → Bool}
    (h : ∀ a ∈ l, p a = q a) : l.all p = l.all q := by
  induction l with
  | nil => rfl
  | cons a rest ih =>
    simp only [List.all_cons, h a (List.mem_cons_self a rest),
      ih (fun x hx => h x (List.mem_cons_of_mem a hx))]

theorem finished_snoc_of_not_mem {b : BranchEntry} {past : List SeqEvent}
    {se : SeqEvent} (h : (se.orig : Int) ∉ b.events_on_branch) :
    finished (past ++ [se]) b = finished past b := by
  unfold finished
  rw [pastIdx_append]
  apply all_congr_list
  intro i hi
  have hne : i ≠ (se.orig : Int) := fun he => h (he ▸ hi)
  rw [intContains_eq, intContains_eq]
  by_cases hp : i ∈ pastIdx past <;> simp [hp, List.mem_append, hne]

theorem isEmpty_dedup_filter (l m : List Int) :
    (l.dedup.filter (fun i => !(m.contains i))).isEmpty =
      l.all (fun i => m.contains i) := by
  cases hall : l.all (fun i => m.contains i) with
  | true =>
    rw [List.isEmpty_eq_true, List.filter_eq_nil_iff]
    intro a ha
    have h2 := List.all_eq_true.mp hall a (List.mem_dedup.mp ha)
    rw [intContains_eq] at h2
    simp [intContains_eq]
    exact of_decide_eq_true h2
  | false =>
    obtain ⟨x, hx, hxc⟩ := List.all_eq_false.mp hall
    rw [List.isEmpty_eq_false]
    intro hnil
    have hxf : m.contains x = false := by simpa using hxc
    have hxmem : x ∈ l.dedup.filter (fun i => !(m.contains i)) :=
      List.mem_filter.mpr ⟨List.mem_dedup.mpr hx, by
        simp only [intContains_eq] at hxf ⊢
        simpa using hxf⟩
    rw [hnil] at hxmem
    exact absurd hxmem (List.not_mem_nil x)

theorem finished_false_of_unprocessed {b : BranchEntry} {past : List SeqEvent}
    {se : SeqEvent} (hmem : (se.orig : Int) ∈ b.events_on_branch)
    (hnew : (se.orig : Int) ∉ pastIdx past) :
    finished past b = false := by
  unfold finished
  rw [List.all_eq_false]
  refine ⟨(se.orig : Int), hmem, ?_⟩
  simpa using hnew

theorem remaining_snoc_of_not_mem {b : BranchEntry} {past : List SeqEvent}
    {se : SeqEvent} (h : (se.orig : Int) ∉ b.events_on_branch) :
    b.events_on_branch.dedup.filter
        (fun i => !((pastIdx (past ++ [se])).contains i)) =
      b.events_on_branch.dedup.filter (fun i => !((pastIdx past).contains i)) := by
  apply List.filter_congr
  intro i hi
  have hne : i ≠ (se.orig : Int) := fun he => h (he ▸ List.mem_dedup.mp hi)
  rw [pastIdx_append, intContains_eq, intContains_eq]
  by_cases hp : i ∈ pastIdx past <;> simp [hp, List.mem_append, hne]

theorem updateAssoc_plan_map {β : Type} (plan : List BranchEntry)
    (hnd : (plan.map (fun b => b.name)).Nodup)
    {b : BranchEntry} (hb : b ∈ plan) (f g : BranchEntry → β)
    (hother : ∀ x ∈ plan, x ≠ b → f x = g x) :
    updateAssoc (plan.map (fun x => (x.name, f x))) b.name (g b) =
      plan.map (fun x => (x.name, g x)) := by
  unfold updateAssoc
  rw [List.map_map]
  apply List.map_congr_left
  intro x hx
  simp only [Function.comp]
  by_cases he : x.name = b.name
  · rw [if_pos he]
    have : x = b := name_inj_of_nodup hnd x hx b hb he
    rw [this]
  · rw [if_neg he]
    rw [hother x hx (fun hxy => he (hxy ▸ rfl))]

theorem MergeShape.transport {b : BranchEntry} {past : List SeqEvent}
    {se : SeqEvent} {s s' : RepoState}
    (ms : MergeShape b past s)
    (hnotmem : (se.orig : Int) ∉ b.events_on_branch)
    (newcs : List Commit) (hcs : s'.commits = s.commits ++ newcs)
    (newbm : List (Nat × String)) (hbm : s'.branch_map = s.branch_map ++ newbm)
    (hbmnew : ∀ q ∈ newbm, q.2 = "main" → s.commits.length ≤ q.1)
    (newmc : List (Nat × String)) (hmc : s'.merge_commits = s.merge_commits ++ newmc)
    (hmcnew : ∀ x ∈ newmc, x.2 ≠ b.name)
    (hlen : ∀ c ∈ s.commits, c.id < s.commits.length) :
    MergeShape b (past ++ [se]) s' := by
  obtain ⟨pre, c, mc, post, lev, p, hcomm, hlast, hmsg, hts, hpar1, hmmsg, hmau, hmts,
    hmpar, hpmem, hpmax, hfilter⟩ := ms
  have hmcmem : mc ∈ s.commits := by
    rw [hcomm]
    simp
  have hmcid : mc.id < s.commits.length := hlen mc hmcmem
  refine ⟨pre, c, mc, post ++ newcs, lev, p, ?_, ?_, hmsg, hts, hpar1, hmmsg, hmau, hmts,
    hmpar, ?_, ?_, ?_⟩
  · rw [hcs, hcomm]
    simp
  · rw [List.filter_append]
    have : [se].filter (fun x => b.events_on_branch.contains ((x.orig : Int))) = [] := by
      simp only [List.filter_cons, List.filter_nil]
      rw [intContains_eq]
      simp [hnotmem]
    rw [this, List.append_nil]
    exact hlast
  · rw [hbm]
    exact List.mem_append_left _ hpmem
  · intro q hq hqmain hqlt
    rw [hbm] at hq
    rcases List.mem_append.mp hq with hq | hq
    · exact hpmax q hq hqmain hqlt
    · have := hbmnew q hq hqmain
      omega
  · rw [hmc, List.filter_append]
    have : newmc.filter (fun x => x.2 = b.name) = [] := by
      rw [List.filter_eq_nil_iff]
      intro x hx
      simpa using hmcnew x hx
    rw [this, List.append_nil]
    exact hfilter

theorem buildInv_step_main {plan : List BranchEntry} {fd : Nat}
    {past : List SeqEvent} {se : SeqEvent} {future : List SeqEvent} {s s' : RepoState}
    (hInv : BuildInv plan fd past (se :: future) s)
    (hfut : ∀ x ∈ future, se.date ≤ x.date)
    (hnotmem : ∀ b ∈ plan, (se.orig : Int) ∉ b.events_on_branch)
    (hc : s'.commits = s.commits ++
      [⟨s.commits.length, se.ev.commit_message, se.date, se.date, [s.mainTip]⟩])
    (hmt : s'.mainTip = s.commits.length)
    (htp : s'.branchTips = s.branchTips)
    (hcr : s'.created_branches = s.created_branches)
    (hbr : s'.branch_remaining = s.branch_remaining)
    (hbm : s'.branch_map = s.branch_map ++ [(s.commits.length, "main")])
    (hmc : s'.merge_commits = s.merge_commits) :
    BuildInv plan fd (past ++ [se]) future s' := by
  have hmainLt := hInv.mainLt
  have hidLt : ∀ c ∈ s.commits, c.id < s.commits.length := fun c hc => hInv.idLt hc
  refine ⟨?_, ?_, ?_, ?_, ?_, ?_, ?_, ?_, ?_, ?_, ?_, ?_, ?_, ?_, ?_, ?_, ?_, ?_, ?_, ?_, ?_⟩
  · rw [hc]
    simp [hInv.ids, List.range_succ]
  · rw [hc, hmc]
    simp only [List.length_append, List.length_cons, List.length_nil]
    have := hInv.count
    omega
  · rw [hc]
    intro c hcm p hp
    rcases List.mem_append.mp hcm with hcm | hcm
    · exact hInv.parentsSmall c hcm p hp
    · simp only [List.mem_singleton] at hcm
      subst hcm
      simp only [List.mem_singleton] at hp
      subst hp
      exact hmainLt
  · rw [hc, List.map_append, List.pairwise_append]
    refine ⟨hInv.tsMono, by simp, ?_⟩
    intro a ha bts hb
    simp only [List.map_cons, List.map_nil, List.mem_singleton] at hb
    subst hb
    obtain ⟨c', hc', rfl⟩ := List.mem_map.mp ha
    exact hInv.tsUB c' hc' se (List.mem_cons_self se future)
  · rw [hc]
    intro c hcm x hx
    rcases List.mem_append.mp hcm with hcm | hcm
    · exact hInv.tsUB c hcm x (List.mem_cons_of_mem se hx)
    · simp only [List.mem_singleton] at hcm
      subst hcm
      exact hfut x hx
  · rw [hc]
    intro c hcm
    rcases List.mem_append.mp hcm with hcm | hcm
    · exact hInv.authorEq c hcm
    · simp only [List.mem_singleton] at hcm
      subst hcm
      rfl
  · rw [hmt, hbm]
    simp
  · rw [hmt, hbm]
    intro q hq hqm
    rcases List.mem_append.mp hq with hq | hq
    · have := hInv.mainMax q hq hqm
      omega
    · simp only [List.mem_singleton] at hq
      subst hq
      exact Nat.le_refl _
  · rw [htp, hcr]
    exact hInv.tipsKeys
  · rw [hcr]
    exact hInv.createdNodup
  · rw [htp, hc]
    intro t ht
    have := hInv.tipsBound t ht
    simp only [List.length_append, List.length_cons, List.length_nil]
    omega
  · rw [hcr]
    exact hInv.createdSub
  · rw [hcr]
    rintro b hb ⟨i, hi, hmem⟩
    rw [pastIdx_append] at hmem
    rcases List.mem_append.mp hmem with hmem | hmem
    · exact hInv.createdOf b hb ⟨i, hi, hmem⟩
    · simp only [List.mem_singleton] at hmem
      subst hmem
      exact absurd hi (hnotmem b hb)
  · rw [hbr, hInv.remaining]
    apply List.map_congr_left
    intro x hx
    rw [remaining_snoc_of_not_mem (hnotmem x hx)]
  · rw [hbm, hc]
    simp [hInv.branchMapIds]
  · rw [hmc]
    have hfc : plan.filter (fun b => shouldMergeOf b && finished (past ++ [se]) b) =
        plan.filter (fun b => shouldMergeOf b && finished past b) := by
      apply List.filter_congr
      intro x hx
      rw [finished_snoc_of_not_mem (hnotmem x hx)]
    rw [hfc]
    exact hInv.mergeNames
  · rw [hmc, hc, List.filter_append]
    have h2 : [(⟨s.commits.length, se.ev.commit_message, se.date, se.date,
        [s.mainTip]⟩ : Commit)].filter (fun c => c.parents.length = 2) = [] := by
      simp
    rw [h2, List.append_nil]
    exact hInv.mergeIds
  · rw [hc, List.filter_append]
    have h2 : [(⟨s.commits.length, se.ev.commit_message, se.date, se.date,
        [s.mainTip]⟩ : Commit)].filter (fun c => c.parents.length = 0) = [] := by
      simp
    rw [h2, List.append_nil]
    exact hInv.initUnique
  · rw [hc, List.filter_append]
    have h2 : [(⟨s.commits.length, se.ev.commit_message, se.date, se.date,
        [s.mainTip]⟩ : Commit)].filter (fun c => c.parents.length = 1) =
        [⟨s.commits.length, se.ev.commit_message, se.date, se.date, [s.mainTip]⟩] := by
      simp
    rw [h2, List.map_append, hInv.eventTrace, List.map_append]
    rfl
  · intro c' hc'
    rw [hc] at hc'
    have hfind : s.commits.find? (fun x => x.id = s.commits.length) = none :=
      List.find?_eq_none.mpr (fun x hx => by
        simp only [decide_eq_true_eq]
        exact Nat.ne_of_lt (hidLt x hx))
    have hparents : parentsOf (s.commits ++
        [⟨s.commits.length, se.ev.commit_message, se.date, se.date, [s.mainTip]⟩])
        s.commits.length = [s.mainTip] := by
      unfold parentsOf
      rw [List.find?_append, hfind]
      simp
    have hT : allRefTips s' = s.commits.length :: s.branchTips.map (fun p => p.2) := by
      rw [allRefTips, hmt, htp]
    rw [hT, hc]
    have hroot : ∀ r ∈ allRefTips s,
        Reaches (s.commits ++
          [⟨s.commits.length, se.ev.commit_message, se.date, se.date, [s.mainTip]⟩])
          (s.commits.length :: s.branchTips.map (fun p => p.2)) r := by
      intro r hr
      rcases List.mem_cons.mp hr with hr | hr
      · subst hr
        exact Reaches.parent (Reaches.root (List.mem_cons_self _ _))
          (by rw [hparents]; exact List.mem_singleton.mpr rfl)
      · exact Reaches.root (List.mem_cons_of_mem _ hr)
    rcases List.mem_append.mp hc' with hc' | hc'
    · exact ((hInv.reaches c' hc').append).transfer hroot
    · simp only [List.mem_singleton] at hc'
      subst hc'
      exact Reaches.root (List.mem_cons_self _ _)
  · intro b hb hsm hfin
    rw [finished_snoc_of_not_mem (hnotmem b hb)] at hfin
    exact (hInv.mergeShape b hb hsm hfin).transport (hnotmem b hb)
      [⟨s.commits.length, se.ev.commit_message, se.date, se.date, [s.mainTip]⟩] hc
      [(s.commits.length, "main")] hbm
      (by
        intro q hq hqm
        simp only [List.mem_singleton] at hq
        subst hq
        exact Nat.le_refl _)
      [] (by rw [hmc, List.append_nil]) (by intro x hx; simp at hx) hidLt

theorem merge_filter_nil {plan : List BranchEntry} {past : List SeqEvent}
    {s : RepoState}
    (hperm : (s.merge_commits.map Prod.snd).Perm
      ((plan.filter (fun b => shouldMergeOf b && finished past b)).map (fun b => b.name)))
    (hnd : (plan.map (fun b => b.name)).Nodup)
    {b : BranchEntry} (hb : b ∈ plan)
    (hpred : (shouldMergeOf b && finished past b) = false) :
    s.merge_commits.filter (fun x => x.2 = b.name) = [] := by
  have hnotin : b.name ∉ s.merge_commits.map Prod.snd := by
    intro hmem
    have hmem2 := hperm.mem_iff.mp hmem
    obtain ⟨x, hx, hxn⟩ := List.mem_map.mp hmem2
    have hxplan : x ∈ plan := List.mem_of_mem_filter hx
    have hxb : x = b := name_inj_of_nodup hnd x hxplan b hb hxn
    have := List.of_mem_filter hx
    rw [hxb, hpred] at this
    exact absurd this (by simp)
  rw [List.filter_eq_nil_iff]
  intro x hx
  simp only [decide_eq_true_eq]
  intro he
  exact hnotin (he ▸ List.mem_map_of_mem Prod.snd hx)

theorem buildInv_step_created_nomerge {plan : List BranchEntry} {n fd : Nat}
    (hWF : PlanWF plan n)
    {past : List SeqEvent} {se : SeqEvent} {future : List SeqEvent} {s s' : RepoState}
    {b : BranchEntry} (hb : b ∈ plan)
    (hmemb : (se.orig : Int) ∈ b.events_on_branch)
    (hInv : BuildInv plan fd past (se :: future) s)
    (hfut : ∀ x ∈ future, se.date ≤ x.date)
    (hnew : (se.orig : Int) ∉ pastIdx past)
    (hkeys : b.name ∈ s.branchTips.map Prod.fst)
    (hnomerge : ((((lookupA s.branch_remaining b.name).getD []).filter
        (fun j => j ≠ (se.orig : Int))).isEmpty && shouldMergeOf b) = false)
    (hc : s'.commits = s.commits ++
      [⟨s.commits.length, se.ev.commit_message, se.date, se.date,
        [(lookupA s.branchTips b.name).getD 0]⟩])
    (hmt : s'.mainTip = s.mainTip)
    (htp : s'.branchTips = updateAssoc s.branchTips b.name s.commits.length)
    (hcr : s'.created_branches = s.created_branches)
    (hbr : s'.branch_remaining = updateAssoc s.branch_remaining b.name
      (((lookupA s.branch_remaining b.name).getD []).filter
        (fun j => j ≠ (se.orig : Int))))
    (hbm : s'.branch_map = s.branch_map ++ [(s.commits.length, b.name)])
    (hmc : s'.merge_commits = s.merge_commits) :
    BuildInv plan fd (past ++ [se]) future s' := by
  obtain ⟨hsz, hrange, hdisj, hnd, hnmain⟩ := hWF
  have hbnm : b.name ≠ "main" := hnmain b hb
  have hothers : ∀ x ∈ plan, x ≠ b → (se.orig : Int) ∉ x.events_on_branch := by
    intro x hx hxb hmem
    exact hxb (disjoint_unique hdisj x hx b hb _ hmem hmemb)
  have hmainLt := hInv.mainLt
  have hidLt : ∀ c ∈ s.commits, c.id < s.commits.length := fun c hc => hInv.idLt hc
  have htipnd : (s.branchTips.map Prod.fst).Nodup := by
    rw [hInv.tipsKeys]
    exact hInv.createdNodup
  have hbtip : (lookupA s.branchTips b.name).getD 0 < s.commits.length := by
    cases hlk : lookupA s.branchTips b.name with
    | none =>
      have := lookupA_isSome hkeys
      rw [hlk] at this
      simp at this
    | some v =>
      have hmm : (b.name, v) ∈ s.branchTips := lookupA_mem hlk
      have hv := hInv.tipsBound _ hmm
      simpa using hv
  have hRb : lookupA s.branch_remaining b.name =
      some (b.events_on_branch.dedup.filter (fun i => !((pastIdx past).contains i))) := by
    rw [hInv.remaining]
    exact lookupA_map_pair _ plan hnd hb
  have hnewRem : ((lookupA s.branch_remaining b.name).getD []).filter
      (fun j => j ≠ (se.orig : Int)) =
      b.events_on_branch.dedup.filter
        (fun i => !((pastIdx (past ++ [se])).contains i)) := by
    rw [hRb]
    exact filter_remaining_snoc _ past se
  have hfin' : (((lookupA s.branch_remaining b.name).getD []).filter
      (fun j => j ≠ (se.orig : Int))).isEmpty = finished (past ++ [se]) b := by
    rw [hnewRem]
    unfold finished
    exact isEmpty_dedup_filter _ _
  have hfinb : finished past b = false := finished_false_of_unprocessed hmemb hnew
  have hpred' : (shouldMergeOf b && finished (past ++ [se]) b) = false := by
    rw [Bool.and_comm, ← hfin']
    exact hnomerge
  have hfilter_eq : plan.filter (fun x => shouldMergeOf x && finished (past ++ [se]) x) =
      plan.filter (fun x => shouldMergeOf x && finished past x) := by
    apply List.filter_congr
    intro x hx
    by_cases hxb : x = b
    · subst hxb
      rw [hpred', hfinb, Bool.and_false]
    · rw [finished_snoc_of_not_mem (hothers x hx hxb)]
  refine ⟨?_, ?_, ?_, ?_, ?_, ?_, ?_, ?_, ?_, ?_, ?_, ?_, ?_, ?_, ?_, ?_, ?_, ?_, ?_, ?_, ?_⟩
  · rw [hc]
    simp [hInv.ids, List.range_succ]
  · rw [hc, hmc]
    simp only [List.length_append, List.length_cons, List.length_nil]
    have := hInv.count
    omega
  · rw [hc]
    intro c hcm p hp
    rcases List.mem_append.mp hcm with hcm | hcm
    · exact hInv.parentsSmall c hcm p hp
    · simp only [List.mem_singleton] at hcm
      subst hcm
      simp only [List.mem_singleton] at hp
      subst hp
      exact hbtip
  · rw [hc, List.map_append, List.pairwise_append]
    refine ⟨hInv.tsMono, by simp, ?_⟩
    intro a ha bts hbmem
    simp only [List.map_cons, List.map_nil, List.mem_singleton] at hbmem
    subst hbmem
    obtain ⟨c', hc', rfl⟩ := List.mem_map.mp ha
    exact hInv.tsUB c' hc' se (List.mem_cons_self se future)
  · rw [hc]
    intro c hcm x hx
    rcases List.mem_append.mp hcm with hcm | hcm
    · exact hInv.tsUB c hcm x (List.mem_cons_of_mem se hx)
    · simp only [List.mem_singleton] at hcm
      subst hcm
      exact hfut x hx
  · rw [hc]
    intro c hcm
    rcases List.mem_append.mp hcm with hcm | hcm
    · exact hInv.authorEq c hcm
    · simp only [List.mem_singleton] at hcm
      subst hcm
      rfl
  · rw [hmt, hbm]
    exact List.mem_append_left _ hInv.mainInMap
  · rw [hmt, hbm]
    intro q hq hqm
    rcases List.mem_append.mp hq with hq | hq
    · exact hInv.mainMax q hq hqm
    · simp only [List.mem_singleton] at hq
      subst hq
      exact absurd hqm hbnm
  · rw [htp, hcr, updateAssoc_map_fst]
    exact hInv.tipsKeys
  · rw [hcr]
    exact hInv.createdNodup
  · rw [htp, hc]
    intro t ht
    simp only [List.length_append, List.length_cons, List.length_nil]
    unfold updateAssoc at ht
    obtain ⟨t0, ht0, rfl⟩ := List.mem_map.mp ht
    by_cases h0 : t0.1 = b.name
    · rw [if_pos h0]
      omega
    · rw [if_neg h0]
      have := hInv.tipsBound t0 ht0
      omega
  · rw [hcr]
    exact hInv.createdSub
  · rw [hcr]
    rintro b' hb' ⟨i, hi, hmem⟩
    rw [pastIdx_append] at hmem
    rcases List.mem_append.mp hmem with hmem | hmem
    · exact hInv.createdOf b' hb' ⟨i, hi, hmem⟩
    · simp only [List.mem_singleton] at hmem
      subst hmem
      by_cases hb'b : b' = b
      · subst hb'b
        rw [← hInv.tipsKeys]
        exact hkeys
      · exact absurd hi (hothers b' hb' hb'b)
  · rw [hbr, hnewRem, hInv.remaining]
    have := updateAssoc_plan_map plan hnd hb
      (fun x => x.events_on_branch.dedup.filter (fun i => !((pastIdx past).contains i)))
      (fun x => x.events_on_branch.dedup.filter
        (fun i => !((pastIdx (past ++ [se])).contains i)))
      (fun x hx hxb => (remaining_snoc_of_not_mem (hothers x hx hxb)).symm)
    exact this
  · rw [hbm, hc]
    simp [hInv.branchMapIds]
  · rw [hmc, hfilter_eq]
    exact hInv.mergeNames
  · rw [hmc, hc, List.filter_append]
    have h2 : [(⟨s.commits.length, se.ev.commit_message, se.date, se.date,
        [(lookupA s.branchTips b.name).getD 0]⟩ : Commit)].filter
        (fun c => c.parents.length = 2) = [] := by
      simp
    rw [h2, List.append_nil]
    exact hInv.mergeIds
  · rw [hc, List.filter_append]
    have h2 : [(⟨s.commits.length, se.ev.commit_message, se.date, se.date,
        [(lookupA s.branchTips b.name).getD 0]⟩ : Commit)].filter
        (fun c => c.parents.length = 0) = [] := by
      simp
    rw [h2, List.append_nil]
    exact hInv.initUnique
  · rw [hc, List.filter_append]
    have h2 : [(⟨s.commits.length, se.ev.commit_message, se.date, se.date,
        [(lookupA s.branchTips b.name).getD 0]⟩ : Commit)].filter
        (fun c => c.parents.length = 1) =
        [⟨s.commits.length, se.ev.commit_message, se.date, se.date,
          [(lookupA s.branchTips b.name).getD 0]⟩] := by
      simp
    rw [h2, List.map_append, hInv.eventTrace, List.map_append]
    rfl
  · intro c' hc'
    rw [hc] at hc'
    have hfind : s.commits.find? (fun x => x.id = s.commits.length) = none :=
      List.find?_eq_none.mpr (fun x hx => by
        simp only [decide_eq_true_eq]
        exact Nat.ne_of_lt (hidLt x hx))
    have hparents : parentsOf (s.commits ++
        [⟨s.commits.length, se.ev.commit_message, se.date, se.date,
          [(lookupA s.branchTips b.name).getD 0]⟩])
        s.commits.length = [(lookupA s.branchTips b.name).getD 0] := by
      unfold parentsOf
      rw [List.find?_append, hfind]
      simp
    have hT : allRefTips s' = s.mainTip ::
        (updateAssoc s.branchTips b.name s.commits.length).map (fun p => p.2) := by
      rw [allRefTips, hmt, htp]
    have hn0mem : s.commits.length ∈
        (updateAssoc s.branchTips b.name s.commits.length).map (fun p => p.2) := by
      obtain ⟨t, ht, htb⟩ := List.mem_map.mp hkeys
      apply List.mem_map.mpr
      refine ⟨(b.name, s.commits.length), ?_, rfl⟩
      unfold updateAssoc
      apply List.mem_map.mpr
      exact ⟨t, ht, by rw [if_pos htb]⟩
    rw [hT, hc]
    have hroot : ∀ r ∈ allRefTips s,
        Reaches (s.commits ++
          [⟨s.commits.length, se.ev.commit_message, se.date, se.date,
            [(lookupA s.branchTips b.name).getD 0]⟩])
          (s.mainTip ::
            (updateAssoc s.branchTips b.name s.commits.length).map (fun p => p.2)) r := by
      intro r hr
      rcases List.mem_cons.mp hr with hr | hr
      · subst hr
        exact Reaches.root (List.mem_cons_self _ _)
      · obtain ⟨t, ht, rfl⟩ := List.mem_map.mp hr
        by_cases h0 : t.1 = b.name
        · have hlk : lookupA s.branchTips b.name = some t.2 := by
            rw [← h0]
            exact lookupA_eq_some_of_mem htipnd ht
          refine Reaches.parent
            (Reaches.root (List.mem_cons_of_mem _ hn0mem)) ?_
          rw [hparents, hlk]
          exact List.mem_singleton.mpr rfl
        · apply Reaches.root
          apply List.mem_cons_of_mem
          apply List.mem_map.mpr
          refine ⟨t, ?_, rfl⟩
          unfold updateAssoc
          apply List.mem_map.mpr
          exact ⟨t, ht, by rw [if_neg h0]⟩
    rcases List.mem_append.mp hc' with hc' | hc'
    · exact ((hInv.reaches c' hc').append).transfer hroot
    · simp only [List.mem_singleton] at hc'
      subst hc'
      exact Reaches.root (List.mem_cons_of_mem _ hn0mem)
  · intro b' hb' hsm hfin
    have hb'b : b' ≠ b := by
      intro he
      subst he
      rw [hfin, Bool.and_true] at hpred'
      exact absurd hsm (by simp [hpred'])
    rw [finished_snoc_of_not_mem (hothers b' hb' hb'b)] at hfin
    exact (hInv.mergeShape b' hb' hsm hfin).transport (hothers b' hb' hb'b)
      [⟨s.commits.length, se.ev.commit_message, se.date, se.date,
        [(lookupA s.branchTips b.name).getD 0]⟩] hc
      [(s.commits.length, b.name)] hbm
      (by
        intro q hq hqm
        simp only [List.mem_singleton] at hq
        subst hq
        exact absurd hqm hbnm)
      [] (by rw [hmc, List.append_nil]) (by intro x hx; simp at hx) hidLt

theorem buildInv_step_fresh_nomerge {plan : List BranchEntry} {n fd : Nat}
    (hWF : PlanWF plan n)
    {past : List SeqEvent} {se : SeqEvent} {future : List SeqEvent} {s s' : RepoState}
    {b : BranchEntry} (hb : b ∈ plan)
    (hmemb : (se.orig : Int) ∈ b.events_on_branch)
    (hInv : BuildInv plan fd past (se :: future) s)
    (hfut : ∀ x ∈ future, se.date ≤ x.date)
    (hnew : (se.orig : Int) ∉ pastIdx past)
    (hnot : b.name ∉ s.created_branches)
    (hnomerge : ((((lookupA s.branch_remaining b.name).getD []).filter
        (fun j => j ≠ (se.orig : Int))).isEmpty && shouldMergeOf b) = false)
    (hc : s'.commits = s.commits ++
      [⟨s.commits.length, se.ev.commit_message, se.date, se.date, [s.mainTip]⟩])
    (hmt : s'.mainTip = s.mainTip)
    (htp : s'.branchTips = s.branchTips ++ [(b.name, s.commits.length)])
    (hcr : s'.created_branches = s.created_branches ++ [b.name])
    (hbr : s'.branch_remaining = updateAssoc s.branch_remaining b.name
      (((lookupA s.branch_remaining b.name).getD []).filter
        (fun j => j ≠ (se.orig : Int))))
    (hbm : s'.branch_map = s.branch_map ++ [(s.commits.length, b.name)])
    (hmc : s'.merge_commits = s.merge_commits) :
    BuildInv plan fd (past ++ [se]) future s' := by
  obtain ⟨hsz, hrange, hdisj, hnd, hnmain⟩ := hWF
  have hbnm : b.name ≠ "main" := hnmain b hb
  have hothers : ∀ x ∈ plan, x ≠ b → (se.orig : Int) ∉ x.events_on_branch := by
    intro x hx hxb hmem
    exact hxb (disjoint_unique hdisj x hx b hb _ hmem hmemb)
  have hmainLt := hInv.mainLt
  have hidLt : ∀ c ∈ s.commits, c.id < s.commits.length := fun c hc => hInv.idLt hc
  have hRb : lookupA s.branch_remaining b.name =
      some (b.events_on_branch.dedup.filter (fun i => !((pastIdx past).contains i))) := by
    rw [hInv.remaining]
    exact lookupA_map_pair _ plan hnd hb
  have hnewRem : ((lookupA s.branch_remaining b.name).getD []).filter
      (fun j => j ≠ (se.orig : Int)) =
      b.events_on_branch.dedup.filter
        (fun i => !((pastIdx (past ++ [se])).contains i)) := by
    rw [hRb]
    exact filter_remaining_snoc _ past se
  have hfin' : (((lookupA s.branch_remaining b.name).getD []).filter
      (fun j => j ≠ (se.orig : Int))).isEmpty = finished (past ++ [se]) b := by
    rw [hnewRem]
    unfold finished
    exact isEmpty_dedup_filter _ _
  have hfinb : finished past b = false := finished_false_of_unprocessed hmemb hnew
  have hpred' : (shouldMergeOf b && finished (past ++ [se]) b) = false := by
    rw [Bool.and_comm, ← hfin']
    exact hnomerge
  have hfilter_eq : plan.filter (fun x => shouldMergeOf x && finished (past ++ [se]) x) =
      plan.filter (fun x => shouldMergeOf x && finished past x) := by
    apply List.filter_congr
    intro x hx
    by_cases hxb : x = b
    · subst hxb
      rw [hpred', hfinb, Bool.and_false]
    · rw [finished_snoc_of_not_mem (hothers x hx hxb)]
  refine ⟨?_, ?_, ?_, ?_, ?_, ?_, ?_, ?_, ?_, ?_, ?_, ?_, ?_, ?_, ?_, ?_, ?_, ?_, ?_, ?_, ?_⟩
  · rw [hc]
    simp [hInv.ids, List.range_succ]
  · rw [hc, hmc]
    simp only [List.length_append, List.length_cons, List.length_nil]
    have := hInv.count
    omega
  · rw [hc]
    intro c hcm p hp
    rcases List.mem_append.mp hcm with hcm | hcm
    · exact hInv.parentsSmall c hcm p hp
    · simp only [List.mem_singleton] at hcm
      subst hcm
      simp only [List.mem_singleton] at hp
      subst hp
      exact hmainLt
  · rw [hc, List.map_append, List.pairwise_append]
    refine ⟨hInv.tsMono, by simp, ?_⟩
    intro a ha bts hbmem
    simp only [List.map_cons, List.map_nil, List.mem_singleton] at hbmem
    subst hbmem
    obtain ⟨c', hc', rfl⟩ := List.mem_map.mp ha
    exact hInv.tsUB c' hc' se (List.mem_cons_self se future)
  · rw [hc]
    intro c hcm x hx
    rcases List.mem_append.mp hcm with hcm | hcm
    · exact hInv.tsUB c hcm x (List.mem_cons_of_mem se hx)
    · simp only [List.mem_singleton] at hcm
      subst hcm
      exact hfut x hx
  · rw [hc]
    intro c hcm
    rcases List.mem_append.mp hcm with hcm | hcm
    · exact hInv.authorEq c hcm
    · simp only [List.mem_singleton] at hcm
      subst hcm
      rfl
  · rw [hmt, hbm]
    exact List.mem_append_left _ hInv.mainInMap
  · rw [hmt, hbm]
    intro q hq hqm
    rcases List.mem_append.mp hq with hq | hq
    · exact hInv.mainMax q hq hqm
    · simp only [List.mem_singleton] at hq
      subst hq
      exact absurd hqm hbnm
  · rw [htp, hcr, List.map_append, hInv.tipsKeys]
    rfl
  · rw [hcr]
    refine List.Nodup.append hInv.createdNodup (List.nodup_singleton _) ?_
    intro a ha hamem
    simp only [List.mem_singleton] at hamem
    subst hamem
    exact hnot ha
  · rw [htp, hc]
    intro t ht
    simp only [List.length_append, List.length_cons, List.length_nil]
    rcases List.mem_append.mp ht with ht | ht
    · have := hInv.tipsBound t ht
      omega
    · simp only [List.mem_singleton] at ht
      subst ht
      simp
  · rw [hcr]
    intro nm hnm
    rcases List.mem_append.mp hnm with hnm | hnm
    · exact hInv.createdSub nm hnm
    · simp only [List.mem_singleton] at hnm
      subst hnm
      exact ⟨b, hb, rfl⟩
  · rw [hcr]
    rintro b' hb' ⟨i, hi, hmem⟩
    rw [pastIdx_append] at hmem
    rcases List.mem_append.mp hmem with hmem | hmem
    · exact List.mem_append_left _ (hInv.createdOf b' hb' ⟨i, hi, hmem⟩)
    · simp only [List.mem_singleton] at hmem
      subst hmem
      by_cases hb'b : b' = b
      · subst hb'b
        exact List.mem_append_right _ (List.mem_singleton.mpr rfl)
      · exact absurd hi (hothers b' hb' hb'b)
  · rw [hbr, hnewRem, hInv.remaining]
    exact updateAssoc_plan_map plan hnd hb
      (fun x => x.events_on_branch.dedup.filter (fun i => !((pastIdx past).contains i)))
      (fun x => x.events_on_branch.dedup.filter
        (fun i => !((pastIdx (past ++ [se])).contains i)))
      (fun x hx hxb => (remaining_snoc_of_not_mem (hothers x hx hxb)).symm)
  · rw [hbm, hc]
    simp [hInv.branchMapIds]
  · rw [hmc, hfilter_eq]
    exact hInv.mergeNames
  · rw [hmc, hc, List.filter_append]
    have h2 : [(⟨s.commits.length, se.ev.commit_message, se.date, se.date,
        [s.mainTip]⟩ : Commit)].filter (fun c => c.parents.length = 2) = [] := by
      simp
    rw [h2, List.append_nil]
    exact hInv.mergeIds
  · rw [hc, List.filter_append]
    have h2 : [(⟨s.commits.length, se.ev.commit_message, se.date, se.date,
        [s.mainTip]⟩ : Commit)].filter (fun c => c.parents.length = 0) = [] := by
      simp
    rw [h2, List.append_nil]
    exact hInv.initUnique
  · rw [hc, List.filter_append]
    have h2 : [(⟨s.commits.length, se.ev.commit_message, se.date, se.date,
        [s.mainTip]⟩ : Commit)].filter (fun c => c.parents.length = 1) =
        [⟨s.commits.length, se.ev.commit_message, se.date, se.date, [s.mainTip]⟩] := by
      simp
    rw [h2, List.map_append, hInv.eventTrace, List.map_append]
    rfl
  · intro c' hc'
    rw [hc] at hc'
    have hT : allRefTips s' = s.mainTip ::
        (s.branchTips.map (fun p => p.2) ++ [s.commits.length]) := by
      rw [allRefTips, hmt, htp]
      simp
    rw [hT, hc]
    have hroot : ∀ r ∈ allRefTips s,
        r ∈ s.mainTip :: (s.branchTips.map (fun p => p.2) ++ [s.commits.length]) := by
      intro r hr
      rcases List.mem_cons.mp hr with hr | hr
      · subst hr
        exact List.mem_cons_self _ _
      · exact List.mem_cons_of_mem _ (List.mem_append_left _ hr)
    rcases List.mem_append.mp hc' with hc' | hc'
    · exact ((hInv.reaches c' hc').append).mono_roots hroot
    · simp only [List.mem_singleton] at hc'
      subst hc'
      exact Reaches.root (List.mem_cons_of_mem _
        (List.mem_append_right _ (List.mem_singleton.mpr rfl)))
  · intro b' hb' hsm hfin
    have hb'b : b' ≠ b := by
      intro he
      subst he
      rw [hfin, Bool.and_true] at hpred'
      exact absurd hsm (by simp [hpred'])
    rw [finished_snoc_of_not_mem (hothers b' hb' hb'b)] at hfin
    exact (hInv.mergeShape b' hb' hsm hfin).transport (hothers b' hb' hb'b)
      [⟨s.commits.length, se.ev.commit_message, se.date, se.date, [s.mainTip]⟩] hc
      [(s.commits.length, b.name)] hbm
      (by
        intro q hq hqm
        simp only [List.mem_singleton] at hq
        subst hq
        exact absurd hqm hbnm)
      [] (by rw [hmc, List.append_nil]) (by intro x hx; simp at hx) hidLt

theorem buildInv_step_created_merge {plan : List BranchEntry} {n fd : Nat}
    (hWF : PlanWF plan n)
    {past : List SeqEvent} {se : SeqEvent} {future : List SeqEvent} {s s' : RepoState}
    {b : BranchEntry} (hb : b ∈ plan)
    (hmemb : (se.orig : Int) ∈ b.events_on_branch)
    (hInv : BuildInv plan fd past (se :: future) s)
    (hfut : ∀ x ∈ future, se.date ≤ x.date)
    (hnew : (se.orig : Int) ∉ pastIdx past)
    (hkeys : b.name ∈ s.branchTips.map Prod.fst)
    (hmerge : ((((lookupA s.branch_remaining b.name).getD []).filter
        (fun j => j ≠ (se.orig : Int))).isEmpty && shouldMergeOf b) = true)
    (hc : s'.commits = s.commits ++
      [⟨s.commits.length, se.ev.commit_message, se.date, se.date,
        [(lookupA s.branchTips b.name).getD 0]⟩] ++
      [⟨s.commits.length + 1, mergeMessageOf b, se.date, se.date,
        [s.mainTip, s.commits.length]⟩])
    (hmt : s'.mainTip = s.commits.length + 1)
    (htp : s'.branchTips = updateAssoc s.branchTips b.name s.commits.length)
    (hcr : s'.created_branches = s.created_branches)
    (hbr : s'.branch_remaining = updateAssoc s.branch_remaining b.name
      (((lookupA s.branch_remaining b.name).getD []).filter
        (fun j => j ≠ (se.orig : Int))))
    (hbm : s'.branch_map = s.branch_map ++
      [(s.commits.length, b.name)] ++ [(s.commits.length + 1, "main")])
    (hmc : s'.merge_commits = s.merge_commits ++ [(s.commits.length + 1, b.name)]) :
    BuildInv plan fd (past ++ [se]) future s' := by
  obtain ⟨hsz, hrange, hdisj, hnd, hnmain⟩ := hWF
  have hbnm : b.name ≠ "main" := hnmain b hb
  have hothers : ∀ x ∈ plan, x ≠ b → (se.orig : Int) ∉ x.events_on_branch := by
    intro x hx hxb hmem
    exact hxb (disjoint_unique hdisj x hx b hb _ hmem hmemb)
  have hmainLt := hInv.mainLt
  have hidLt : ∀ c ∈ s.commits, c.id < s.commits.length := fun c hc => hInv.idLt hc
  have htipnd : (s.branchTips.map Prod.fst).Nodup := by
    rw [hInv.tipsKeys]
    exact hInv.createdNodup
  have hbtip : (lookupA s.branchTips b.name).getD 0 < s.commits.length := by
    cases hlk : lookupA s.branchTips b.name with
    | none =>
      have := lookupA_isSome hkeys
      rw [hlk] at this
      simp at this
    | some v =>
      have hmm : (b.name, v) ∈ s.branchTips := lookupA_mem hlk
      have hv := hInv.tipsBound _ hmm
      simpa using hv
  have hRb : lookupA s.branch_remaining b.name =
      some (b.events_on_branch.dedup.filter (fun i => !((pastIdx past).contains i))) := by
    rw [hInv.remaining]
    exact lookupA_map_pair _ plan hnd hb
  have hnewRem : ((lookupA s.branch_remaining b.name).getD []).filter
      (fun j => j ≠ (se.orig : Int)) =
      b.events_on_branch.dedup.filter
        (fun i => !((pastIdx (past ++ [se])).contains i)) := by
    rw [hRb]
    exact filter_remaining_snoc _ past se
  have hfin'eq : (((lookupA s.branch_remaining b.name).getD []).filter
      (fun j => j ≠ (se.orig : Int))).isEmpty = finished (past ++ [se]) b := by
    rw [hnewRem]
    unfold finished
    exact isEmpty_dedup_filter _ _
  obtain ⟨hfin', hsm⟩ : finished (past ++ [se]) b = true ∧ shouldMergeOf b = true := by
    have := Bool.and_eq_true_iff.mp hmerge
    exact ⟨hfin'eq ▸ this.1, this.2⟩
  have hfinb : finished past b = false := finished_false_of_unprocessed hmemb hnew
  have hpredb : (shouldMergeOf b && finished past b) = false := by
    rw [hfinb, Bool.and_false]
  have hplan_nd : plan.Nodup := List.Nodup.of_map _ hnd
  have hflip : (plan.filter (fun x => shouldMergeOf x && finished (past ++ [se]) x)).Perm
      (b :: plan.filter (fun x => shouldMergeOf x && finished past x)) := by
    apply filter_flip_perm plan hplan_nd b hb
    · exact hpredb
    · rw [hsm, hfin']
      rfl
    · intro x hx hxb
      rw [finished_snoc_of_not_mem (hothers x hx hxb)]
  have hcommits2 : s'.commits = s.commits ++
      [⟨s.commits.length, se.ev.commit_message, se.date, se.date,
        [(lookupA s.branchTips b.name).getD 0]⟩,
       ⟨s.commits.length + 1, mergeMessageOf b, se.date, se.date,
        [s.mainTip, s.commits.length]⟩] := by
    rw [hc, List.append_assoc]
    rfl
  refine ⟨?_, ?_, ?_, ?_, ?_, ?_, ?_, ?_, ?_, ?_, ?_, ?_, ?_, ?_, ?_, ?_, ?_, ?_, ?_, ?_, ?_⟩
  · rw [hcommits2]
    simp only [List.map_append, hInv.ids, List.length_append, List.length_cons,
      List.length_nil]
    rw [List.range_succ, List.range_succ]
    simp
  · rw [hcommits2, hmc]
    simp only [List.length_append, List.length_cons, List.length_nil]
    have := hInv.count
    omega
  · rw [hcommits2]
    intro c hcm p hp
    rcases List.mem_append.mp hcm with hcm | hcm
    · exact hInv.parentsSmall c hcm p hp
    · rcases List.mem_cons.mp hcm with hcm | hcm
      · subst hcm
        simp only [List.mem_singleton] at hp
        subst hp
        exact hbtip
      · simp only [List.mem_singleton] at hcm
        subst hcm
        rcases List.mem_cons.mp hp with hp | hp
        · subst hp
          show s.mainTip < s.commits.length + 1
          omega
        · simp only [List.mem_singleton] at hp
          subst hp
          show s.commits.length < s.commits.length + 1
          omega
  · rw [hcommits2, List.map_append, List.pairwise_append]
    refine ⟨hInv.tsMono, by simp, ?_⟩
    intro a ha bts hbmem
    simp only [List.map_cons, List.map_nil] at hbmem
    obtain ⟨c', hc', rfl⟩ := List.mem_map.mp ha
    have := hInv.tsUB c' hc' se (List.mem_cons_self se future)
    rcases List.mem_cons.mp hbmem with hbmem | hbmem
    · rw [hbmem]; exact this
    · simp only [List.mem_singleton] at hbmem
      rw [hbmem]; exact this
  · rw [hcommits2]
    intro c hcm x hx
    rcases List.mem_append.mp hcm with hcm | hcm
    · exact hInv.tsUB c hcm x (List.mem_cons_of_mem se hx)
    · rcases List.mem_cons.mp hcm with hcm | hcm
      · subst hcm
        exact hfut x hx
      · simp only [List.mem_singleton] at hcm
        subst hcm
        exact hfut x hx
  · rw [hcommits2]
    intro c hcm
    rcases List.mem_append.mp hcm with hcm | hcm
    · exact hInv.authorEq c hcm
    · rcases List.mem_cons.mp hcm with hcm | hcm
      · subst hcm; rfl
      · simp only [List.mem_singleton] at hcm
        subst hcm; rfl
  · rw [hmt, hbm]
    simp
  · rw [hmt, hbm]
    intro q hq hqm
    rcases List.mem_append.mp hq with hq | hq
    · rcases List.mem_append.mp hq with hq | hq
      · have := hInv.mainMax q hq hqm
        omega
      · simp only [List.mem_singleton] at hq
        subst hq
        exact absurd hqm hbnm
    · simp only [List.mem_singleton] at hq
      subst hq
      exact Nat.le_refl _
  · rw [htp, hcr, updateAssoc_map_fst]
    exact hInv.tipsKeys
  · rw [hcr]
    exact hInv.createdNodup
  · rw [htp, hcommits2]
    intro t ht
    simp only [List.length_append, List.length_cons, List.length_nil]
    unfold updateAssoc at ht
    obtain ⟨t0, ht0, rfl⟩ := List.mem_map.mp ht
    by_cases h0 : t0.1 = b.name
    · rw [if_pos h0]
      omega
    · rw [if_neg h0]
      have := hInv.tipsBound t0 ht0
      omega
  · rw [hcr]
    exact hInv.createdSub
  · rw [hcr]
    rintro b' hb' ⟨i, hi, hmem⟩
    rw [pastIdx_append] at hmem
    rcases List.mem_append.mp hmem with hmem | hmem
    · exact hInv.createdOf b' hb' ⟨i, hi, hmem⟩
    · simp only [List.mem_singleton] at hmem
      subst hmem
      by_cases hb'b : b' = b
      · subst hb'b
        rw [← hInv.tipsKeys]
        exact hkeys
      · exact absurd hi (hothers b' hb' hb'b)
  · rw [hbr, hnewRem, hInv.remaining]
    exact updateAssoc_plan_map plan hnd hb
      (fun x => x.events_on_branch.dedup.filter (fun i => !((pastIdx past).contains i)))
      (fun x => x.events_on_branch.dedup.filter
        (fun i => !((pastIdx (past ++ [se])).contains i)))
      (fun x hx hxb => (remaining_snoc_of_not_mem (hothers x hx hxb)).symm)
  · rw [hbm, hcommits2]
    simp [hInv.branchMapIds]
  · rw [hmc, List.map_append]
    have h1 : (plan.filter (fun x => shouldMergeOf x && finished (past ++ [se]) x)).map
          (fun x => x.name) =
        b.name :: (plan.filter (fun x => shouldMergeOf x && finished past x)).map
          (fun x => x.name) →
        True := fun _ => trivial
    refine (List.perm_append_singleton _ _).trans ?_
    refine ((hInv.mergeNames.cons b.name)).trans ?_
    have := hflip.map (fun x => x.name)
    simpa using this.symm
  · rw [hmc, hcommits2, List.filter_append, List.map_append, List.map_append]
    rw [hInv.mergeIds]
    congr 1
  · rw [hcommits2, List.filter_append]
    have h2 : ([⟨s.commits.length, se.ev.commit_message, se.date, se.date,
        [(lookupA s.branchTips b.name).getD 0]⟩,
        ⟨s.commits.length + 1, mergeMessageOf b, se.date, se.date,
          [s.mainTip, s.commits.length]⟩] : List Commit).filter
        (fun c => c.parents.length = 0) = [] := by
      simp
    rw [h2, List.append_nil]
    exact hInv.initUnique
  · rw [hcommits2, List.filter_append]
    have h2 : ([⟨s.commits.length, se.ev.commit_message, se.date, se.date,
        [(lookupA s.branchTips b.name).getD 0]⟩,
        ⟨s.commits.length + 1, mergeMessageOf b, se.date, se.date,
          [s.mainTip, s.commits.length]⟩] : List Commit).filter
        (fun c => c.parents.length = 1) =
        [⟨s.commits.length, se.ev.commit_message, se.date, se.date,
          [(lookupA s.branchTips b.name).getD 0]⟩] := by
      simp
    rw [h2, List.map_append, hInv.eventTrace, List.map_append]
    rfl
  · intro c' hc'
    rw [hcommits2] at hc'
    have hfind : s.commits.find? (fun x => x.id = s.commits.length) = none :=
      List.find?_eq_none.mpr (fun x hx => by
        simp only [decide_eq_true_eq]
        exact Nat.ne_of_lt (hidLt x hx))
    have hfind1 : s.commits.find? (fun x => x.id = s.commits.length + 1) = none :=
      List.find?_eq_none.mpr (fun x hx => by
        simp only [decide_eq_true_eq]
        have := hidLt x hx
        omega)
    have hpar0 : parentsOf (s.commits ++
        [⟨s.commits.length, se.ev.commit_message, se.date, se.date,
          [(lookupA s.branchTips b.name).getD 0]⟩,
         ⟨s.commits.length + 1, mergeMessageOf b, se.date, se.date,
          [s.mainTip, s.commits.length]⟩]) s.commits.length =
        [(lookupA s.branchTips b.name).getD 0] := by
      unfold parentsOf
      rw [List.find?_append, hfind]
      simp
    have hpar1 : parentsOf (s.commits ++
        [⟨s.commits.length, se.ev.commit_message, se.date, se.date,
          [(lookupA s.branchTips b.name).getD 0]⟩,
         ⟨s.commits.length + 1, mergeMessageOf b, se.date, se.date,
          [s.mainTip, s.commits.length]⟩]) (s.commits.length + 1) =
        [s.mainTip, s.commits.length] := by
      unfold parentsOf
      rw [List.find?_append, hfind1]
      have : ([⟨s.commits.length, se.ev.commit_message, se.date, se.date,
          [(lookupA s.branchTips b.name).getD 0]⟩,
          ⟨s.commits.length + 1, mergeMessageOf b, se.date, se.date,
            [s.mainTip, s.commits.length]⟩] : List Commit).find?
          (fun x => x.id = s.commits.length + 1) =
          some ⟨s.commits.length + 1, mergeMessageOf b, se.date, se.date,
            [s.mainTip, s.commits.length]⟩ := by
        rw [List.find?_cons_of_neg _ (by simp), List.find?_cons_of_pos _ (by simp)]
      rw [this]
      rfl
    have hT : allRefTips s' = (s.commits.length + 1) ::
        (updateAssoc s.branchTips b.name s.commits.length).map (fun p => p.2) := by
      rw [allRefTips, hmt, htp]
    rw [hT, hcommits2]
    have hreach1 : Reaches (s.commits ++
        [⟨s.commits.length, se.ev.commit_message, se.date, se.date,
          [(lookupA s.branchTips b.name).getD 0]⟩,
         ⟨s.commits.length + 1, mergeMessageOf b, se.date, se.date,
          [s.mainTip, s.commits.length]⟩])
        ((s.commits.length + 1) ::
          (updateAssoc s.branchTips b.name s.commits.length).map (fun p => p.2))
        (s.commits.length + 1) := Reaches.root (List.mem_cons_self _ _)
    have hroot : ∀ r ∈ allRefTips s,
        Reaches (s.commits ++
          [⟨s.commits.length, se.ev.commit_message, se.date, se.date,
            [(lookupA s.branchTips b.name).getD 0]⟩,
           ⟨s.commits.length + 1, mergeMessageOf b, se.date, se.date,
            [s.mainTip, s.commits.length]⟩])
          ((s.commits.length + 1) ::
            (updateAssoc s.branchTips b.name s.commits.length).map (fun p => p.2)) r := by
      intro r hr
      rcases List.mem_cons.mp hr with hr | hr
      · subst hr
        exact Reaches.parent (i := s.mainTip) hreach1 (by rw [hpar1]; simp)
      · obtain ⟨t, ht, rfl⟩ := List.mem_map.mp hr
        by_cases h0 : t.1 = b.name
        · have hlk : lookupA s.branchTips b.name = some t.2 := by
            rw [← h0]
            exact lookupA_eq_some_of_mem htipnd ht
          refine Reaches.parent
            (Reaches.parent (i := s.commits.length) hreach1 (by rw [hpar1]; simp)) ?_
          rw [hpar0, hlk]
          exact List.mem_singleton.mpr rfl
        · apply Reaches.root
          apply List.mem_cons_of_mem
          apply List.mem_map.mpr
          refine ⟨t, ?_, rfl⟩
          unfold updateAssoc
          apply List.mem_map.mpr
          exact ⟨t, ht, by rw [if_neg h0]⟩
    rcases List.mem_append.mp hc' with hc' | hc'
    · exact ((hInv.reaches c' hc').append).transfer hroot
    · rcases List.mem_cons.mp hc' with hc' | hc'
      · subst hc'
        exact Reaches.parent (i := s.commits.length) hreach1 (by rw [hpar1]; simp)
      · simp only [List.mem_singleton] at hc'
        subst hc'
        exact hreach1
  · intro b' hb' hsm' hfin2
    by_cases hb'b : b' = b
    · subst hb'b
      refine ⟨s.commits,
        ⟨s.commits.length, se.ev.commit_message, se.date, se.date,
          [(lookupA s.branchTips b'.name).getD 0]⟩,
        ⟨s.commits.length + 1, mergeMessageOf b', se.date, se.date,
          [s.mainTip, s.commits.length]⟩,
        [], se, s.mainTip, ?_, ?_, rfl, rfl, rfl, rfl, rfl, rfl, rfl, ?_, ?_, ?_⟩
      · rw [hcommits2]
      · rw [List.filter_append]
        have hse : ([se].filter
            (fun x => b'.events_on_branch.contains ((x.orig : Int)))) = [se] := by
          simp only [List.filter_cons, List.filter_nil]
          rw [intContains_eq]
          simp [hmemb]
        rw [hse, List.getLast?_concat]
      · rw [hbm]
        exact List.mem_append_left _ (List.mem_append_left _ hInv.mainInMap)
      · intro q hq hqm hqlt
        rw [hbm] at hq
        rcases List.mem_append.mp hq with hq | hq
        · rcases List.mem_append.mp hq with hq | hq
          · exact hInv.mainMax q hq hqm
          · simp only [List.mem_singleton] at hq
            subst hq
            exact absurd hqm hbnm
        · simp only [List.mem_singleton] at hq
          subst hq
          simp at hqlt
      · rw [hmc, List.filter_append]
        rw [merge_filter_nil hInv.mergeNames hnd hb hpredb]
        simp
    · have hb'fin : finished past b' = true := by
        rw [← finished_snoc_of_not_mem (hothers b' hb' hb'b)]
        exact hfin2
      have hname : b.name ≠ b'.name := by
        intro he
        exact hb'b (name_inj_of_nodup hnd b' hb' b hb he.symm)
      exact (hInv.mergeShape b' hb' hsm' hb'fin).transport (hothers b' hb' hb'b)
        [⟨s.commits.length, se.ev.commit_message, se.date, se.date,
          [(lookupA s.branchTips b.name).getD 0]⟩,
         ⟨s.commits.length + 1, mergeMessageOf b, se.date, se.date,
          [s.mainTip, s.commits.length]⟩] hcommits2
        [(s.commits.length, b.name), (s.commits.length + 1, "main")]
        (by rw [hbm, List.append_assoc]; rfl)
        (by
          intro q hq hqm
          rcases List.mem_cons.mp hq with hq | hq
          · subst hq
            exact absurd hqm hbnm
          · simp only [List.mem_singleton] at hq
            subst hq
            omega)
        [(s.commits.length + 1, b.name)] hmc
        (by
          intro x hx
          simp only [List.mem_singleton] at hx
          subst hx
          exact hname)
        hidLt

theorem buildInv_step_fresh_merge {plan : List BranchEntry} {n fd : Nat}
    (hWF : PlanWF plan n)
    {past : List SeqEvent} {se : SeqEvent} {future : List SeqEvent} {s s' : RepoState}
    {b : BranchEntry} (hb : b ∈ plan)
    (hmemb : (se.orig : Int) ∈ b.events_on_branch)
    (hInv : BuildInv plan fd past (se :: future) s)
    (hfut : ∀ x ∈ future, se.date ≤ x.date)
    (hnew : (se.orig : Int) ∉ pastIdx past)
    (hnot : b.name ∉ s.created_branches)
    (hmerge : ((((lookupA s.branch_remaining b.name).getD []).filter
        (fun j => j ≠ (se.orig : Int))).isEmpty && shouldMergeOf b) = true)
    (hc : s'.commits = s.commits ++
      [⟨s.commits.length, se.ev.commit_message, se.date, se.date, [s.mainTip]⟩] ++
      [⟨s.commits.length + 1, mergeMessageOf b, se.date, se.date,
        [s.mainTip, s.commits.length]⟩])
    (hmt : s'.mainTip = s.commits.length + 1)
    (htp : s'.branchTips = s.branchTips ++ [(b.name, s.commits.length)])
    (hcr : s'.created_branches = s.created_branches ++ [b.name])
    (hbr : s'.branch_remaining = updateAssoc s.branch_remaining b.name
      (((lookupA s.branch_remaining b.name).getD []).filter
        (fun j => j ≠ (se.orig : Int))))
    (hbm : s'.branch_map = s.branch_map ++
      [(s.commits.length, b.name)] ++ [(s.commits.length + 1, "main")])
    (hmc : s'.merge_commits = s.merge_commits ++ [(s.commits.length + 1, b.name)]) :
    BuildInv plan fd (past ++ [se]) future s' := by
  obtain ⟨hsz, hrange, hdisj, hnd, hnmain⟩ := hWF
  have hbnm : b.name ≠ "main" := hnmain b hb
  have hothers : ∀ x ∈ plan, x ≠ b → (se.orig : Int) ∉ x.events_on_branch := by
    intro x hx hxb hmem
    exact hxb (disjoint_unique hdisj x hx b hb _ hmem hmemb)
  have hmainLt := hInv.mainLt
  have hidLt : ∀ c ∈ s.commits, c.id < s.commits.length := fun c hc => hInv.idLt hc
  have hRb : lookupA s.branch_remaining b.name =
      some (b.events_on_branch.dedup.filter (fun i => !((pastIdx past).contains i))) := by
    rw [hInv.remaining]
    exact lookupA_map_pair _ plan hnd hb
  have hnewRem : ((lookupA s.branch_remaining b.name).getD []).filter
      (fun j => j ≠ (se.orig : Int)) =
      b.events_on_branch.dedup.filter
        (fun i => !((pastIdx (past ++ [se])).contains i)) := by
    rw [hRb]
    exact filter_remaining_snoc _ past se
  have hfin'eq : (((lookupA s.branch_remaining b.name).getD []).filter
      (fun j => j ≠ (se.orig : Int))).isEmpty = finished (past ++ [se]) b := by
    rw [hnewRem]
    unfold finished
    exact isEmpty_dedup_filter _ _
  obtain ⟨hfin', hsm⟩ : finished (past ++ [se]) b = true ∧ shouldMergeOf b = true := by
    have := Bool.and_eq_true_iff.mp hmerge
    exact ⟨hfin'eq ▸ this.1, this.2⟩
  have hfinb : finished past b = false := finished_false_of_unprocessed hmemb hnew
  have hpredb : (shouldMergeOf b && finished past b) = false := by
    rw [hfinb, Bool.and_false]
  have hplan_nd : plan.Nodup := List.Nodup.of_map _ hnd
  have hflip : (plan.filter (fun x => shouldMergeOf x && finished (past ++ [se]) x)).Perm
      (b :: plan.filter (fun x => shouldMergeOf x && finished past x)) := by
    apply filter_flip_perm plan hplan_nd b hb
    · exact hpredb
    · rw [hsm, hfin']
      rfl
    · intro x hx hxb
      rw [finished_snoc_of_not_mem (hothers x hx hxb)]
  have hcommits2 : s'.commits = s.commits ++
      [⟨s.commits.length, se.ev.commit_message, se.date, se.date, [s.mainTip]⟩,
       ⟨s.commits.length + 1, mergeMessageOf b, se.date, se.date,
        [s.mainTip, s.commits.length]⟩] := by
    rw [hc, List.append_assoc]
    rfl
  refine ⟨?_, ?_, ?_, ?_, ?_, ?_, ?_, ?_, ?_, ?_, ?_, ?_, ?_, ?_, ?_, ?_, ?_, ?_, ?_, ?_, ?_⟩
  · rw [hcommits2]
    simp only [List.map_append, hInv.ids, List.length_append, List.length_cons,
      List.length_nil]
    rw [List.range_succ, List.range_succ]
    simp
  · rw [hcommits2, hmc]
    simp only [List.length_append, List.length_cons, List.length_nil]
    have := hInv.count
    omega
  · rw [hcommits2]
    intro c hcm p hp
    rcases List.mem_append.mp hcm with hcm | hcm
    · exact hInv.parentsSmall c hcm p hp
    · rcases List.mem_cons.mp hcm with hcm | hcm
      · subst hcm
        simp only [List.mem_singleton] at hp
        subst hp
        exact hmainLt
      · simp only [List.mem_singleton] at hcm
        subst hcm
        rcases List.mem_cons.mp hp with hp | hp
        · subst hp
          show s.mainTip < s.commits.length + 1
          omega
        · simp only [List.mem_singleton] at hp
          subst hp
          show s.commits.length < s.commits.length + 1
          omega
  · rw [hcommits2, List.map_append, List.pairwise_append]
    refine ⟨hInv.tsMono, by simp, ?_⟩
    intro a ha bts hbmem
    simp only [List.map_cons, List.map_nil] at hbmem
    obtain ⟨c', hc', rfl⟩ := List.mem_map.mp ha
    have := hInv.tsUB c' hc' se (List.mem_cons_self se future)
    rcases List.mem_cons.mp hbmem with hbmem | hbmem
    · rw [hbmem]; exact this
    · simp only [List.mem_singleton] at hbmem
      rw [hbmem]; exact this
  · rw [hcommits2]
    intro c hcm x hx
    rcases List.mem_append.mp hcm with hcm | hcm
    · exact hInv.tsUB c hcm x (List.mem_cons_of_mem se hx)
    · rcases List.mem_cons.mp hcm with hcm | hcm
      · subst hcm
        exact hfut x hx
      · simp only [List.mem_singleton] at hcm
        subst hcm
        exact hfut x hx
  · rw [hcommits2]
    intro c hcm
    rcases List.mem_append.mp hcm with hcm | hcm
    · exact hInv.authorEq c hcm
    · rcases List.mem_cons.mp hcm with hcm | hcm
      · subst hcm; rfl
      · simp only [List.mem_singleton] at hcm
        subst hcm; rfl
  · rw [hmt, hbm]
    simp
  · rw [hmt, hbm]
    intro q hq hqm
    rcases List.mem_append.mp hq with hq | hq
    · rcases List.mem_append.mp hq with hq | hq
      · have := hInv.mainMax q hq hqm
        omega
      · simp only [List.mem_singleton] at hq
        subst hq
        exact absurd hqm hbnm
    · simp only [List.mem_singleton] at hq
      subst hq
      exact Nat.le_refl _
  · rw [htp, hcr, List.map_append, hInv.tipsKeys]
    rfl
  · rw [hcr]
    refine List.Nodup.append hInv.createdNodup (List.nodup_singleton _) ?_
    intro a ha hamem
    simp only [List.mem_singleton] at hamem
    subst hamem
    exact hnot ha
  · rw [htp, hcommits2]
    intro t ht
    simp only [List.length_append, List.length_cons, List.length_nil]
    rcases List.mem_append.mp ht with ht | ht
    · have := hInv.tipsBound t ht
      omega
    · simp only [List.mem_singleton] at ht
      subst ht
      simp
  · rw [hcr]
    intro nm hnm
    rcases List.mem_append.mp hnm with hnm | hnm
    · exact hInv.createdSub nm hnm
    · simp only [List.mem_singleton] at hnm
      subst hnm
      exact ⟨b, hb, rfl⟩
  · rw [hcr]
    rintro b' hb' ⟨i, hi, hmem⟩
    rw [pastIdx_append] at hmem
    rcases List.mem_append.mp hmem with hmem | hmem
    · exact List.mem_append_left _ (hInv.createdOf b' hb' ⟨i, hi, hmem⟩)
    · simp only [List.mem_singleton] at hmem
      subst hmem
      by_cases hb'b : b' = b
      · subst hb'b
        exact List.mem_append_right _ (List.mem_singleton.mpr rfl)
      · exact absurd hi (hothers b' hb' hb'b)
  · rw [hbr, hnewRem, hInv.remaining]
    exact updateAssoc_plan_map plan hnd hb
      (fun x => x.events_on_branch.dedup.filter (fun i => !((pastIdx past).contains i)))
      (fun x => x.events_on_branch.dedup.filter
        (fun i => !((pastIdx (past ++ [se])).contains i)))
      (fun x hx hxb => (remaining_snoc_of_not_mem (hothers x hx hxb)).symm)
  · rw [hbm, hcommits2]
    simp [hInv.branchMapIds]
  · rw [hmc, List.map_append]
    refine (List.perm_append_singleton _ _).trans ?_
    refine ((hInv.mergeNames.cons b.name)).trans ?_
    have := hflip.map (fun x => x.name)
    simpa using this.symm
  · rw [hmc, hcommits2, List.filter_append, List.map_append, List.map_append]
    rw [hInv.mergeIds]
    congr 1
  · rw [hcommits2, List.filter_append]
    have h2 : ([⟨s.commits.length, se.ev.commit_message, se.date, se.date,
        [s.mainTip]⟩,
        ⟨s.commits.length + 1, mergeMessageOf b, se.date, se.date,
          [s.mainTip, s.commits.length]⟩] : List Commit).filter
        (fun c => c.parents.length = 0) = [] := by
      simp
    rw [h2, List.append_nil]
    exact hInv.initUnique
  · rw [hcommits2, List.filter_append]
    have h2 : ([⟨s.commits.length, se.ev.commit_message, se.date, se.date,
        [s.mainTip]⟩,
        ⟨s.commits.length + 1, mergeMessageOf b, se.date, se.date,
          [s.mainTip, s.commits.length]⟩] : List Commit).filter
        (fun c => c.parents.length = 1) =
        [⟨s.commits.length, se.ev.commit_message, se.date, se.date, [s.mainTip]⟩] := by
      simp
    rw [h2, List.map_append, hInv.eventTrace, List.map_append]
    rfl
  · intro c' hc'
    rw [hcommits2] at hc'
    have hfind1 : s.commits.find? (fun x => x.id = s.commits.length + 1) = none :=
      List.find?_eq_none.mpr (fun x hx => by
        simp only [decide_eq_true_eq]
        have := hidLt x hx
        omega)
    have hpar1 : parentsOf (s.commits ++
        [⟨s.commits.length, se.ev.commit_message, se.date, se.date, [s.mainTip]⟩,
         ⟨s.commits.length + 1, mergeMessageOf b, se.date, se.date,
          [s.mainTip, s.commits.length]⟩]) (s.commits.length + 1) =
        [s.mainTip, s.commits.length] := by
      unfold parentsOf
      rw [List.find?_append, hfind1]
      rw [List.find?_cons_of_neg _ (by simp), List.find?_cons_of_pos _ (by simp)]
      rfl
    have hT : allRefTips s' = (s.commits.length + 1) ::
        (s.branchTips.map (fun p => p.2) ++ [s.commits.length]) := by
      rw [allRefTips, hmt, htp]
      simp
    rw [hT, hcommits2]
    have hreach1 : Reaches (s.commits ++
        [⟨s.commits.length, se.ev.commit_message, se.date, se.date, [s.mainTip]⟩,
         ⟨s.commits.length + 1, mergeMessageOf b, se.date, se.date,
          [s.mainTip, s.commits.length]⟩])
        ((s.commits.length + 1) ::
          (s.branchTips.map (fun p => p.2) ++ [s.commits.length]))
        (s.commits.length + 1) := Reaches.root (List.mem_cons_self _ _)
    have hroot : ∀ r ∈ allRefTips s,
        Reaches (s.commits ++
          [⟨s.commits.length, se.ev.commit_message, se.date, se.date, [s.mainTip]⟩,
           ⟨s.commits.length + 1, mergeMessageOf b, se.date, se.date,
            [s.mainTip, s.commits.length]⟩])
          ((s.commits.length + 1) ::
            (s.branchTips.map (fun p => p.2) ++ [s.commits.length])) r := by
      intro r hr
      rcases List.mem_cons.mp hr with hr | hr
      · subst hr
        exact Reaches.parent (i := s.mainTip) hreach1 (by rw [hpar1]; simp)
      · exact Reaches.root (List.mem_cons_of_mem _ (List.mem_append_left _ hr))
    rcases List.mem_append.mp hc' with hc' | hc'
    · exact ((hInv.reaches c' hc').append).transfer hroot
    · rcases List.mem_cons.mp hc' with hc' | hc'
      · subst hc'
        exact Reaches.root (List.mem_cons_of_mem _
          (List.mem_append_right _ (List.mem_singleton.mpr rfl)))
      · simp only [List.mem_singleton] at hc'
        subst hc'
        exact hreach1
  · intro b' hb' hsm' hfin2
    by_cases hb'b : b' = b
    · subst hb'b
      refine ⟨s.commits,
        ⟨s.commits.length, se.ev.commit_message, se.date, se.date, [s.mainTip]⟩,
        ⟨s.commits.length + 1, mergeMessageOf b', se.date, se.date,
          [s.mainTip, s.commits.length]⟩,
        [], se, s.mainTip, ?_, ?_, rfl, rfl, rfl, rfl, rfl, rfl, rfl, ?_, ?_, ?_⟩
      · rw [hcommits2]
      · rw [List.filter_append]
        have hse : ([se].filter
            (fun x => b'.events_on_branch.contains ((x.orig : Int)))) = [se] := by
          simp only [List.filter_cons, List.filter_nil]
          rw [intContains_eq]
          simp [hmemb]
        rw [hse, List.getLast?_concat]
      · rw [hbm]
        exact List.mem_append_left _ (List.mem_append_left _ hInv.mainInMap)
      · intro q hq hqm hqlt
        rw [hbm] at hq
        rcases List.mem_append.mp hq with hq | hq
        · rcases List.mem_append.mp hq with hq | hq
          · exact hInv.mainMax q hq hqm
          · simp only [List.mem_singleton] at hq
            subst hq
            exact absurd hqm hbnm
        · simp only [List.mem_singleton] at hq
          subst hq
          simp at hqlt
      · rw [hmc, List.filter_append]
        rw [merge_filter_nil hInv.mergeNames hnd hb hpredb]
        simp
    · have hb'fin : finished past b' = true := by
        rw [← finished_snoc_of_not_mem (hothers b' hb' hb'b)]
        exact hfin2
      have hname : b.name ≠ b'.name := by
        intro he
        exact hb'b (name_inj_of_nodup hnd b' hb' b hb he.symm)
      exact (hInv.mergeShape b' hb' hsm' hb'fin).transport (hothers b' hb' hb'b)
        [⟨s.commits.length, se.ev.commit_message, se.date, se.date, [s.mainTip]⟩,
         ⟨s.commits.length + 1, mergeMessageOf b, se.date, se.date,
          [s.mainTip, s.commits.length]⟩] hcommits2
        [(s.commits.length, b.name), (s.commits.length + 1, "main")]
        (by rw [hbm, List.append_assoc]; rfl)
        (by
          intro q hq hqm
          rcases List.mem_cons.mp hq with hq | hq
          · subst hq
            exact absurd hqm hbnm
          · simp only [List.mem_singleton] at hq
            subst hq
            omega)
        [(s.commits.length + 1, b.name)] hmc
        (by
          intro x hx
          simp only [List.mem_singleton] at hx
          subst hx
          exact hname)
        hidLt

theorem processEvent_inv {plan : List BranchEntry} {n fd : Nat}
    (hWF : PlanWF plan n)
    {past : List SeqEvent} {se : SeqEvent} {future : List SeqEvent} {s : RepoState}
    (hInv : BuildInv plan fd past (se :: future) s)
    (hfut : ∀ x ∈ future, se.date ≤ x.date)
    (hnew : (se.orig : Int) ∉ pastIdx past) :
    ∃ s', processEvent plan s se.orig se.ev se.date = .ok s' ∧
      BuildInv plan fd (past ++ [se]) future s' := by
  cases hlk : event_to_branch plan (se.orig : Int) with
  | none =>
    refine ⟨_, processEvent_none_eq plan s se.orig se.ev se.date hlk, ?_⟩
    exact buildInv_step_main hInv hfut (event_to_branch_none hlk)
      rfl rfl rfl rfl rfl rfl rfl
  | some b =>
    obtain ⟨hbplan, hmemb⟩ := event_to_branch_some hlk
    have hbnm : b.name ≠ "main" := hWF.2.2.2.2 b hbplan
    by_cases hin : b.name ∈ s.created_branches
    · have hkeys : b.name ∈ s.branchTips.map Prod.fst := by
        rw [hInv.tipsKeys]; exact hin
      have heq := processEvent_created_eq plan s se.orig se.ev se.date b hlk hbnm hin hkeys
      cases hmg : ((((lookupA s.branch_remaining b.name).getD []).filter
          (fun j => j ≠ (se.orig : Int))).isEmpty && shouldMergeOf b) with
      | true =>
        rw [if_pos hmg] at heq
        exact ⟨_, heq, buildInv_step_created_merge hWF hbplan hmemb hInv hfut hnew
          hkeys hmg rfl rfl rfl rfl rfl rfl rfl⟩
      | false =>
        rw [hmg, if_neg Bool.false_ne_true] at heq
        exact ⟨_, heq, buildInv_step_created_nomerge hWF hbplan hmemb hInv hfut hnew
          hkeys hmg rfl rfl rfl rfl rfl rfl rfl⟩
    · have hkeys : b.name ∉ s.branchTips.map Prod.fst := by
        rw [hInv.tipsKeys]; exact hin
      have heq := processEvent_fresh_eq plan s se.orig se.ev se.date b hlk hbnm hin hkeys
      cases hmg : ((((lookupA s.branch_remaining b.name).getD []).filter
          (fun j => j ≠ (se.orig : Int))).isEmpty && shouldMergeOf b) with
      | true =>
        rw [if_pos hmg] at heq
        exact ⟨_, heq, buildInv_step_fresh_merge hWF hbplan hmemb hInv hfut hnew
          hin hmg rfl rfl rfl rfl rfl rfl rfl⟩
      | false =>
        rw [hmg, if_neg Bool.false_ne_true] at heq
        exact ⟨_, heq, buildInv_step_fresh_nomerge hWF hbplan hmemb hInv hfut hnew
          hin hmg rfl rfl rfl rfl rfl rfl rfl⟩

theorem finished_nil_false {plan : List BranchEntry} {n : Nat}
    (hWF : PlanWF plan n) {b : BranchEntry} (hb : b ∈ plan) :
    finished [] b = false := by
  obtain ⟨hsz, -, -, -, -⟩ := hWF
  have h2 := hsz b hb
  cases hev : b.events_on_branch with
  | nil => rw [hev] at h2; simp at h2
  | cons x xs => simp [finished, hev, pastIdx]

theorem buildInv_init {plan : List BranchEntry} {n : Nat}
    (hWF : PlanWF plan n) (fd : Nat) (seq : List SeqEvent)
    (hfd : ∀ x ∈ seq, fd ≤ x.date) :
    BuildInv plan fd [] seq (initialState plan fd) := by
  have hnd : (plan.map (fun b => b.name)).Nodup := hWF.2.2.2.1
  refine ⟨?_, ?_, ?_, ?_, ?_, ?_, ?_, ?_, ?_, ?_, ?_, ?_, ?_, ?_, ?_, ?_, ?_, ?_, ?_, ?_, ?_⟩
  · rfl
  · rfl
  · intro c hc p hp
    simp only [initialState, List.mem_singleton] at hc
    subst hc
    simp at hp
  · simp [initialState]
  · intro c hc x hx
    simp only [initialState, List.mem_singleton] at hc
    subst hc
    exact hfd x hx
  · intro c hc
    simp only [initialState, List.mem_singleton] at hc
    subst hc
    rfl
  · simp [initialState]
  · intro q hq hqm
    simp only [initialState, List.mem_singleton] at hq
    subst hq
    exact Nat.le_refl _
  · rfl
  · exact List.nodup_nil
  · intro t ht
    simp [initialState] at ht
  · intro nm hnm
    simp [initialState] at hnm
  · intro b hb hex
    obtain ⟨i, hi, hmem⟩ := hex
    simp [pastIdx] at hmem
  · show init_branch_remaining plan = _
    rw [init_branch_remaining_eq plan hnd]
    apply List.map_congr_left
    intro b _
    simp [pastIdx]
  · rfl
  · show List.Perm [] _
    have hfil : plan.filter (fun b => shouldMergeOf b && finished [] b) = [] := by
      apply List.filter_eq_nil_iff.mpr
      intro b hb
      rw [finished_nil_false hWF hb, Bool.and_false]
      simp
    rw [hfil]
    rfl
  · rfl
  · rfl
  · rfl
  · intro c hc
    simp only [initialState, List.mem_singleton] at hc
    subst hc
    exact Reaches.root (by simp [allRefTips, initialState])
  · intro b hb hsm hfin
    rw [finished_nil_false hWF hb] at hfin
    exact absurd hfin (by simp)

theorem buildLoop_inv {plan : List BranchEntry} {n fd : Nat}
    (hWF : PlanWF plan n) :
    ∀ (future past : List SeqEvent) (s : RepoState),
      BuildInv plan fd past future s →
      ((past ++ future).map SeqEvent.orig).Nodup →
      (past ++ future).Pairwise (fun a b => a.date ≤ b.date) →
      ∃ s', buildLoop plan s future = .ok s' ∧
        BuildInv plan fd (past ++ future) [] s' := by
  intro future
  induction future with
  | nil =>
    intro past s hInv _ _
    refine ⟨s, rfl, ?_⟩
    rw [List.append_nil]
    exact hInv
  | cons se rest ih =>
    intro past s hInv hnd hpw
    have hfut : ∀ x ∈ rest, se.date ≤ x.date := by
      have h1 := (List.pairwise_append.mp hpw).2.1
      exact (List.pairwise_cons.mp h1).1
    have hnew : (se.orig : Int) ∉ pastIdx past := by
      intro hmem
      unfold pastIdx at hmem
      obtain ⟨x, hx, hxe⟩ := List.mem_map.mp hmem
      have hxo : x.orig = se.orig := by exact_mod_cast hxe
      rw [List.map_append] at hnd
      have hdisj := (List.nodup_append.mp hnd).2.2
      have h1 : se.orig ∈ past.map SeqEvent.orig := by
        rw [← hxo]
        exact List.mem_map_of_mem _ hx
      have h2 : se.orig ∈ (se :: rest).map SeqEvent.orig := by simp
      exact hdisj h1 h2
    obtain ⟨s1, hok, hInv1⟩ := processEvent_inv hWF hInv hfut hnew
    have hstep : buildLoop plan s (se :: rest) = buildLoop plan s1 rest := by
      rw [buildLoop, hok]
    rw [hstep]
    have hassoc : past ++ [se] ++ rest = past ++ se :: rest := by simp
    obtain ⟨s2, hok2, hInv2⟩ := ih (past ++ [se]) s1 hInv1
      (by rw [hassoc]; exact hnd) (by rw [hassoc]; exact hpw)
    refine ⟨s2, hok2, ?_⟩
    rw [← hassoc]
    exact hInv2

/-- The sequenced timeline produced by a successful run of the sequencer. -/
def seqOf (parse : String → Option Nat) (events : List Event) : List SeqEvent :=
  (indexedParsed parse events).mergeSort seqLE

/-- The date of the earliest sequenced event (the initial commit's date). -/
def firstDateOf (parse : String → Option Nat) (events : List Event) : Nat :=
  ((seqOf parse events).head?.map (fun se => se.date)).getD 0

theorem create_life_repo_ok_eq (parse : String → Option Nat) (events : List Event)
    (plan : List BranchEntry) (first : SeqEvent) (rest : List SeqEvent)
    (hseq : sequenceEvents parse events = .ok (first :: rest)) :
    create_life_repo parse events plan =
      match buildLoop plan (initialState plan first.date) (first :: rest) with
      | .error e => .error e
      | .ok s => .ok (checkoutMain s) := by
  rw [create_life_repo, hseq]

theorem build_ok (parse : String → Option Nat) (events : List Event)
    (plan : List BranchEntry)
    (hWF : PlanWF plan events.length)
    (hne : events ≠ []) (hp : ∀ e ∈ events, (parse e.date).isSome) :
    ∃ s, create_life_repo parse events plan = .ok s ∧
      BuildInv plan (firstDateOf parse events) (seqOf parse events) [] s := by
  have hseq : sequenceEvents parse events = .ok (seqOf parse events) :=
    sequenceEvents_ok parse events hne hp
  have hlen : (seqOf parse events).length = events.length := by
    rw [seqOf, (List.mergeSort_perm _ _).length_eq]
    simp [indexedParsed]
  have hpos : 0 < events.length := List.length_pos.mpr hne
  have hnnil : seqOf parse events ≠ [] := by
    intro h
    rw [h, List.length_nil] at hlen
    omega
  have hpw : (seqOf parse events).Pairwise (fun a b => a.date ≤ b.date) := by
    rw [seqOf]
    exact (List.sorted_mergeSort seqLE_trans seqLE_total _).imp
      (fun h => by simpa [seqLE] using h)
  have hnd : ((seqOf parse events).map SeqEvent.orig).Nodup := by
    have h1 : ((seqOf parse events).map SeqEvent.orig).Perm
        ((indexedParsed parse events).map SeqEvent.orig) :=
      (List.mergeSort_perm _ _).map _
    have h2 : (indexedParsed parse events).map SeqEvent.orig =
        List.range events.length := by
      simp only [indexedParsed, List.map_map]
      have hco : (SeqEvent.orig ∘ fun p : Nat × Event =>
          (⟨p.1, p.2, (parse p.2.date).getD 0⟩ : SeqEvent)) = Prod.fst := by
        funext p
        rfl
      rw [hco, List.enum_map_fst]
    rw [h2] at h1
    exact h1.nodup_iff.mpr (List.nodup_range _)
  cases hsd : seqOf parse events with
  | nil => exact absurd hsd hnnil
  | cons first rest =>
    have hfd_eq : firstDateOf parse events = first.date := by
      rw [firstDateOf, hsd]
      rfl
    have hfd : ∀ x ∈ seqOf parse events, firstDateOf parse events ≤ x.date := by
      rw [hsd, hfd_eq]
      intro x hx
      rcases List.mem_cons.mp hx with hx | hx
      · rw [hx]
      · rw [hsd] at hpw
        exact (List.pairwise_cons.mp hpw).1 x hx
    have hInit := buildInv_init hWF (firstDateOf parse events) (seqOf parse events) hfd
    obtain ⟨s', hok, hInv⟩ := buildLoop_inv hWF (seqOf parse events) []
      (initialState plan (firstDateOf parse events)) hInit hnd hpw
    have hok' : buildLoop plan (initialState plan first.date) (first :: rest) =
        .ok s' := by
      rw [← hsd, ← hfd_eq]
      exact hok
    refine ⟨checkoutMain s', ?_, ?_⟩
    · rw [create_life_repo_ok_eq parse events plan first rest (by rw [hseq, hsd]), hok']
    · rw [← hsd]
      exact ⟨hInv.ids, hInv.count, hInv.parentsSmall, hInv.tsMono, hInv.tsUB,
        hInv.authorEq, hInv.mainInMap, hInv.mainMax, hInv.tipsKeys, hInv.createdNodup,
        hInv.tipsBound, hInv.createdSub, hInv.createdOf, hInv.remaining,
        hInv.branchMapIds, hInv.mergeNames, hInv.mergeIds, hInv.initUnique,
        hInv.eventTrace, hInv.reaches, hInv.mergeShape⟩

theorem seqOf_length (parse : String → Option Nat) (events : List Event) :
    (seqOf parse events).length = events.length := by
  rw [seqOf, (List.mergeSort_perm _ _).length_eq]
  simp [indexedParsed]

theorem seqOf_orig_perm (parse : String → Option Nat) (events : List Event) :
    ((seqOf parse events).map SeqEvent.orig).Perm (List.range events.length) := by
  have h1 : ((seqOf parse events).map SeqEvent.orig).Perm
      ((indexedParsed parse events).map SeqEvent.orig) :=
    (List.mergeSort_perm _ _).map _
  have h2 : (indexedParsed parse events).map SeqEvent.orig =
      List.range events.length := by
    simp only [indexedParsed, List.map_map]
    have hco : (SeqEvent.orig ∘ fun p : Nat × Event =>
        (⟨p.1, p.2, (parse p.2.date).getD 0⟩ : SeqEvent)) = Prod.fst := by
      funext p
      rfl
    rw [hco, List.enum_map_fst]
  rw [h2] at h1
  exact h1

theorem idx_mem_pastIdx {n : Nat} {seq : List SeqEvent}
    (hperm : (seq.map SeqEvent.orig).Perm (List.range n))
    {i : Int} (hge : 0 ≤ i) (hlt : i < (n : Int)) : i ∈ pastIdx seq := by
  have htn : i.toNat < n := by omega
  have hmem : i.toNat ∈ seq.map SeqEvent.orig :=
    hperm.mem_iff.mpr (List.mem_range.mpr htn)
  obtain ⟨se, hse, hseo⟩ := List.mem_map.mp hmem
  have hi : (se.orig : Int) = i := by
    rw [hseo]
    exact Int.toNat_of_nonneg hge
  rw [← hi]
  exact List.mem_map_of_mem _ hse

theorem finished_of_all_indices {plan : List BranchEntry} {n : Nat}
    (hWF : PlanWF plan n) {seq : List SeqEvent}
    (hperm : (seq.map SeqEvent.orig).Perm (List.range n)) :
    ∀ b ∈ plan, finished seq b = true := by
  intro b hb
  unfold finished
  apply List.all_eq_true.mpr
  intro i hi
  obtain ⟨hge, hlt⟩ := hWF.2.1 b hb i hi
  rw [intContains_eq]
  exact decide_eq_true (idx_mem_pastIdx hperm hge hlt)

/-- C1: for every non-empty event list with parseable dates and every
validated branch plan (with each entry's `merges` field present, as the
claim speaks about `merges = true` entries), the build succeeds; the
single-parent commits are exactly one commit per sequenced event, in
sequence order with that event's message and date, the sequenced original
indices are a permutation of `0..N-1` (so each `original_index` owns
exactly one commit), and the total commit count is
`N_events + 1 (init) + number of entries with merges = true`. -/
theorem C1_commit_count_unique (parse : String → Option Nat) (events : List Event)
    (plan : List BranchEntry)
    (hWF : PlanWF plan events.length)
    (hne : events ≠ []) (hp : ∀ e ∈ events, (parse e.date).isSome)
    (hms : ∀ b ∈ plan, b.merges.isSome) :
    ∃ s, create_life_repo parse events plan = .ok s ∧
      s.commits.length = events.length + 1 +
        (plan.filter (fun b => b.merges = some true)).length ∧
      (s.commits.filter (fun c => c.parents.length = 1)).map
          (fun c => (c.message, c.author_ts, c.commit_ts)) =
        (seqOf parse events).map (fun se => (se.ev.commit_message, se.date, se.date)) ∧
      (s.commits.filter (fun c => c.parents.length = 1)).length = events.length ∧
      ((seqOf parse events).map SeqEvent.orig).Perm (List.range events.length) := by
  obtain ⟨s, hok, hInv⟩ := build_ok parse events plan hWF hne hp
  have hperm := seqOf_orig_perm parse events
  refine ⟨s, hok, ?_, hInv.eventTrace, ?_, hperm⟩
  · have hfin := finished_of_all_indices hWF hperm
    have hfilter : plan.filter
        (fun b => shouldMergeOf b && finished (seqOf parse events) b) =
        plan.filter (fun b => b.merges = some true) := by
      apply List.filter_congr
      intro b hb
      rw [hfin b hb, Bool.and_true]
      cases hm : b.merges with
      | none =>
        have := hms b hb
        rw [hm] at this
        simp at this
      | some v => cases v <;> simp [shouldMergeOf, hm]
    have hlen2 := hInv.mergeNames.length_eq
    rw [hfilter] at hlen2
    simp only [List.length_map] at hlen2
    have hcount := hInv.count
    have hslen := seqOf_length parse events
    omega
  · have hlm := congrArg List.length hInv.eventTrace
    simp only [List.length_map] at hlm
    rw [hlm, seqOf_length]

/-- C2: in every successful build, a plan entry with `merges = true` gets
exactly one merge commit, placed immediately after the commit of its last
remaining event, with two parents (the integration tip at that moment and
the branch tip, which is that last event commit), the entry's merge
message, and the last event's date as both timestamps; an entry with
`merges = false` gets no merge commit at all and its branch is still an
existing (un-merged) head of the final graph. -/
theorem C2_merge_behaviour (parse : String → Option Nat) (events : List Event)
    (plan : List BranchEntry)
    (hWF : PlanWF plan events.length)
    (hne : events ≠ []) (hp : ∀ e ∈ events, (parse e.date).isSome)
    (b : BranchEntry) (hb : b ∈ plan) :
    ∃ s, create_life_repo parse events plan = .ok s ∧
      (b.merges = some true → MergeShape b (seqOf parse events) s) ∧
      (b.merges = some false →
        s.merge_commits.filter (fun x => x.2 = b.name) = [] ∧
        b.name ∈ s.branchTips.map Prod.fst) := by
  obtain ⟨s, hok, hInv⟩ := build_ok parse events plan hWF hne hp
  have hperm := seqOf_orig_perm parse events
  have hfin := finished_of_all_indices hWF hperm
  refine ⟨s, hok, ?_, ?_⟩
  · intro hmt
    exact hInv.mergeShape b hb (by simp [shouldMergeOf, hmt]) (hfin b hb)
  · intro hmf
    have hsm : shouldMergeOf b = false := by simp [shouldMergeOf, hmf]
    constructor
    · exact merge_filter_nil hInv.mergeNames hWF.2.2.2.1 hb (by rw [hsm]; rfl)
    · rw [hInv.tipsKeys]
      apply hInv.createdOf b hb
      obtain ⟨hsz, hrange, -, -, -⟩ := hWF
      have h2 := hsz b hb
      cases hev : b.events_on_branch with
      | nil =>
        rw [hev] at h2
        simp at h2
      | cons i rest =>
        have hi : i ∈ b.events_on_branch := by rw [hev]; exact List.mem_cons_self _ _
        obtain ⟨hge, hlt⟩ := hrange b hb i hi
        exact ⟨i, List.mem_cons_self _ _, idx_mem_pastIdx hperm hge hlt⟩

/-- C6: in every successful build, every commit's author timestamp equals
its commit timestamp, the commit timestamps are monotonically
non-decreasing in creation order, and each event commit carries exactly
its owning event's date as both timestamps. -/
theorem C6_timestamps_equal_monotone (parse : String → Option Nat)
    (events : List Event) (plan : List BranchEntry)
    (hWF : PlanWF plan events.length)
    (hne : events ≠ []) (hp : ∀ e ∈ events, (parse e.date).isSome) :
    ∃ s, create_life_repo parse events plan = .ok s ∧
      (∀ c ∈ s.commits, c.author_ts = c.commit_ts) ∧
      (s.commits.map (fun c => c.commit_ts)).Pairwise (fun a b => a ≤ b) ∧
      (s.commits.filter (fun c => c.parents.length = 1)).map
          (fun c => (c.message, c.author_ts, c.commit_ts)) =
        (seqOf parse events).map (fun se => (se.ev.commit_message, se.date, se.date)) := by
  obtain ⟨s, hok, hInv⟩ := build_ok parse events plan hWF hne hp
  exact ⟨s, hok, hInv.authorEq, hInv.tsMono, hInv.eventTrace⟩

/-- C10 (implicit): a plan entry whose `merges` field is absent is treated
as merging: the build gives it the full merge behaviour of a
`merges = true` entry, and when `merge_message` is also absent the merge
commit carries the default message `Merge branch '<name>'`. -/
theorem C10_default_merge (parse : String → Option Nat) (events : List Event)
    (plan : List BranchEntry)
    (hWF : PlanWF plan events.length)
    (hne : events ≠ []) (hp : ∀ e ∈ events, (parse e.date).isSome)
    (b : BranchEntry) (hb : b ∈ plan) (hnone : b.merges = none) :
    ∃ s, create_life_repo parse events plan = .ok s ∧
      MergeShape b (seqOf parse events) s ∧
      (b.merge_message = none →
        mergeMessageOf b = "Merge branch \x27" ++ b.name ++ "\x27") := by
  obtain ⟨s, hok, hInv⟩ := build_ok parse events plan hWF hne hp
  have hperm := seqOf_orig_perm parse events
  refine ⟨s, hok,
    hInv.mergeShape b hb (by simp [shouldMergeOf, hnone])
      (finished_of_all_indices hWF hperm b hb), ?_⟩
  intro hmm
  rw [mergeMessageOf, hmm]
  rfl

/- ------------------------------------------------------------------ -/
/- Graph Reader: `extract_graph_data`, src/visualize.py lines 84-143. -/
/- ------------------------------------------------------------------ -/

theorem natContains_eq (l : List Nat) (a : Nat) : l.contains a = decide (a ∈ l) := by
  induction l with
  | nil => simp
  | cons x rest ih =>
    rw [List.contains_cons, ih]
    by_cases h1 : a = x <;> by_cases h2 : a ∈ rest <;> simp [h1, h2]

/-- One entry of the JSON-serializable structure the reader returns
(src/visualize.py lines 119-127).  `id` stands for the commit hash; the
embedding's commit messages are single-line tokens, on which the source's
strip-and-take-first-line is the identity; `date` is the commit timestamp
(the source renders it as an ISO string). -/
structure GraphCommit where
  id : Nat
  message : String
  keyword : String
  branch : String
  is_merge : Bool
  parents : List Nat
  date : Nat
deriving Repr, DecidableEq

/-- The structure returned by `extract_graph_data`
(src/visualize.py lines 138-143). -/
structure GraphData where
  commits : List GraphCommit
  branches : List String
  num_commits : Nat
  num_branches : Nat
deriving Repr, DecidableEq

/-- Modelled from the spec: `repo.iter_commits("--all")`
(src/visualize.py line 88) is the engine operation "list commits reachable
from all refs", yielded newest-first by commit timestamp — the spec's §4.5
ordering is "recovered by listing all commits reachable from all refs and
sorting by timestamp".  Reachability is computed from every ref tip along
parent edges; the descending sort is a stable sort of the stored commits
seen newest-first. -/
def iter_commits_all (s : RepoState) : List Commit :=
  ((s.commits.filter (fun c =>
      (reachSet s.commits s.commits.length (allRefTips s)).contains c.id)).reverse).mergeSort
    (fun a b => decide (b.commit_ts ≤ a.commit_ts))

/-- The metadata path of `extract_graph_data` (src/visualize.py lines
84-143): reverse the engine's newest-first listing to chronological order;
label each commit by the metadata `branch_map` lookup with default
`"main"`; a commit is a merge when its hash is in the set of commits with
more than one parent; the keyword is the metadata keyword when non-empty,
else the `_extract_keyword` heuristic (abstracted as the parameter
`extract_keyword`); the branch list is the metadata `branch_order`. -/
def extract_graph_data (extract_keyword : String → String) (s : RepoState) :
    GraphData :=
  { commits := ((iter_commits_all s).reverse).map (fun c =>
      { id := c.id,
        message := c.message,
        keyword := if (lookupA s.keyword_map c.id).getD "" ≠ "" then
            (lookupA s.keyword_map c.id).getD ""
          else extract_keyword c.message,
        branch := (lookupA s.branch_map c.id).getD "main",
        is_merge := ((((iter_commits_all s).reverse).filter
            (fun c2 => 1 < c2.parents.length)).map (fun c2 => c2.id)).contains c.id,
        parents := c.parents,
        date := c.commit_ts }),
    branches := s.branch_order,
    num_commits := ((iter_commits_all s).reverse).length,
    num_branches := s.branch_order.length }

/-- C4: for every successfully built repository, with the builder's
out-of-band metadata, the graph reader yields the commits in ascending
commit-timestamp order, which is exactly the order the builder created
them (the sequenced-timeline order), recovered by listing all commits
reachable from all refs and sorting by timestamp; each commit's branch
label is exactly the label the builder recorded for it in `branch_map`
(so the labels, read in order, are the builder's recorded labels in
order), `is_merge` marks exactly the two-parent commits, and the branch
list is the builder's recorded `branch_order`. -/
theorem C4_reader_round_trip (parse : String → Option Nat) (events : List Event)
    (plan : List BranchEntry) (ek : String → String)
    (hWF : PlanWF plan events.length)
    (hne : events ≠ []) (hp : ∀ e ∈ events, (parse e.date).isSome) :
    ∃ s, create_life_repo parse events plan = .ok s ∧
      (extract_graph_data ek s).commits.map (fun g => (g.id, g.message, g.date)) =
        s.commits.map (fun c => (c.id, c.message, c.commit_ts)) ∧
      ((extract_graph_data ek s).commits.map (fun g => g.date)).Pairwise
        (fun a b => a ≤ b) ∧
      (extract_graph_data ek s).commits.map (fun g => g.branch) =
        s.branch_map.map Prod.snd ∧
      (∀ g ∈ (extract_graph_data ek s).commits,
        g.is_merge = decide (1 < g.parents.length)) ∧
      (extract_graph_data ek s).branches = s.branch_order := by
  obtain ⟨s, hok, hInv⟩ := build_ok parse events plan hWF hne hp
  have hroots : ∀ r ∈ allRefTips s, r < s.commits.length := by
    intro r hr
    rcases List.mem_cons.mp hr with hr | hr
    · subst hr
      exact hInv.mainLt
    · obtain ⟨t, ht, hte⟩ := List.mem_map.mp hr
      rw [← hte]
      exact hInv.tipsBound t ht
  have hfilter : s.commits.filter (fun c =>
      (reachSet s.commits s.commits.length (allRefTips s)).contains c.id) =
      s.commits := by
    apply List.filter_eq_self.mpr
    intro c hc
    rw [natContains_eq]
    exact decide_eq_true
      (reaches_mem_reachSet hInv.parentsSmall hroots (hInv.reaches c hc))
  have hpw : (s.commits.reverse).Pairwise
      (fun a b => (decide (b.commit_ts ≤ a.commit_ts)) = true) := by
    rw [List.pairwise_reverse]
    exact (List.pairwise_map.mp hInv.tsMono).imp (fun h => decide_eq_true h)
  have hiter : (iter_commits_all s).reverse = s.commits := by
    rw [iter_commits_all, hfilter, List.mergeSort_of_sorted hpw,
      List.reverse_reverse]
  have hidnd : (s.commits.map (fun c => c.id)).Nodup := by
    rw [hInv.ids]
    exact List.nodup_range _
  have hgc : (extract_graph_data ek s).commits = s.commits.map (fun c =>
      { id := c.id,
        message := c.message,
        keyword := if (lookupA s.keyword_map c.id).getD "" ≠ "" then
            (lookupA s.keyword_map c.id).getD ""
          else ek c.message,
        branch := (lookupA s.branch_map c.id).getD "main",
        is_merge := ((s.commits.filter
            (fun c2 => 1 < c2.parents.length)).map (fun c2 => c2.id)).contains c.id,
        parents := c.parents,
        date := c.commit_ts }) := by
    show ((iter_commits_all s).reverse).map _ = _
    rw [hiter]
  refine ⟨s, hok, ?_, ?_, ?_, ?_, rfl⟩
  · rw [hgc, List.map_map]
    rfl
  · rw [hgc, List.map_map]
    exact hInv.tsMono
  · rw [hgc, List.map_map]
    have hbnd : (s.branch_map.map Prod.fst).Nodup := by
      rw [hInv.branchMapIds]
      exact hidnd
    have h1 : s.branch_map.map Prod.snd =
        s.branch_map.map (fun p => (lookupA s.branch_map p.1).getD "main") := by
      apply List.map_congr_left
      intro p hp
      rw [lookupA_eq_some_of_mem hbnd hp]
      rfl
    have h2 : (s.branch_map.map Prod.fst).map
        (fun i => (lookupA s.branch_map i).getD "main") =
        s.branch_map.map (fun p => (lookupA s.branch_map p.1).getD "main") := by
      rw [List.map_map]
      rfl
    rw [h1, ← h2, hInv.branchMapIds, List.map_map]
    rfl
  · rw [hgc]
    intro g hg
    obtain ⟨c, hc, rfl⟩ := List.mem_map.mp hg
    show ((s.commits.filter
        (fun c2 => 1 < c2.parents.length)).map (fun c2 => c2.id)).contains c.id =
      decide (1 < c.parents.length)
    rw [natContains_eq]
    by_cases hm : 1 < c.parents.length
    · have hmem : c.id ∈ (s.commits.filter
          (fun c2 => 1 < c2.parents.length)).map (fun c2 => c2.id) :=
        List.mem_map_of_mem _ (List.mem_filter.mpr ⟨hc, by simpa using hm⟩)
      simp [hmem, hm]
    · have hnot : c.id ∉ (s.commits.filter
          (fun c2 => 1 < c2.parents.length)).map (fun c2 => c2.id) := by
        intro hmem
        obtain ⟨c2, hc2, hce⟩ := List.mem_map.mp hmem
        have hc2c : c2 ∈ s.commits := List.mem_of_mem_filter hc2
        have : c2 = c := List.inj_on_of_nodup_map hidnd hc2c hc hce
        subst this
        exact hm (by simpa using (List.mem_filter.mp hc2).2)
      simp [hnot, hm]

/- ------------------------------------------------------------------ -/
/- Concrete inputs for the witnesses: a three-event journal with one
   two-event branch (the shape of the walkthrough scenario).          -/
/- ------------------------------------------------------------------ -/

/-- A concrete date parser for witnesses: a finite table of dates. -/
def parseW : String → Option Nat := fun str =>
  if str = "1" then some 1
  else if str = "2" then some 2
  else if str = "3" then some 3
  else none

def evW : List Event :=
  [⟨"Start university", "1", "start", "study"⟩,
   ⟨"Take exams", "2", "exams", ""⟩,
   ⟨"Meet a friend", "3", "friend", ""⟩]

def bW : BranchEntry := ⟨"study", some true, some "Graduate", [0, 1]⟩

def bW10 : BranchEntry := ⟨"travel", none, none, [0, 1]⟩

/-- A trivial keyword heuristic for the reader witness. -/
def ekW : String → String := fun _ => ""

theorem planWF_W : PlanWF [bW] evW.length :=
  ⟨by decide, by decide, by decide, by decide, by decide⟩

theorem planWF_W10 : PlanWF [bW10] evW.length :=
  ⟨by decide, by decide, by decide, by decide, by decide⟩

/-- Witness for C1 at the concrete three-event, one-branch input. -/
theorem C1_commit_count_unique_witness :
    PlanWF [bW] evW.length ∧
    (∃ s, create_life_repo parseW evW [bW] = .ok s ∧
      s.commits.length = evW.length + 1 +
        (([bW]).filter (fun b => b.merges = some true)).length ∧
      (s.commits.filter (fun c => c.parents.length = 1)).map
          (fun c => (c.message, c.author_ts, c.commit_ts)) =
        (seqOf parseW evW).map (fun se => (se.ev.commit_message, se.date, se.date)) ∧
      (s.commits.filter (fun c => c.parents.length = 1)).length = evW.length ∧
      ((seqOf parseW evW).map SeqEvent.orig).Perm (List.range evW.length)) :=
  ⟨planWF_W, C1_commit_count_unique parseW evW [bW] planWF_W (by decide) (by decide)
    (by decide)⟩

/-- Witness for C2 at the concrete three-event, one-branch input. -/
theorem C2_merge_behaviour_witness :
    bW ∈ [bW] ∧
    (∃ s, create_life_repo parseW evW [bW] = .ok s ∧
      (bW.merges = some true → MergeShape bW (seqOf parseW evW) s) ∧
      (bW.merges = some false →
        s.merge_commits.filter (fun x => x.2 = bW.name) = [] ∧
        bW.name ∈ s.branchTips.map Prod.fst)) :=
  ⟨List.mem_cons_self _ _,
   C2_merge_behaviour parseW evW [bW] planWF_W (by decide) (by decide) bW
     (List.mem_cons_self _ _)⟩

/-- Witness for C4 at the concrete three-event, one-branch input. -/
theorem C4_reader_round_trip_witness :
    evW ≠ [] ∧
    (∃ s, create_life_repo parseW evW [bW] = .ok s ∧
      (extract_graph_data ekW s).commits.map (fun g => (g.id, g.message, g.date)) =
        s.commits.map (fun c => (c.id, c.message, c.commit_ts)) ∧
      ((extract_graph_data ekW s).commits.map (fun g => g.date)).Pairwise
        (fun a b => a ≤ b) ∧
      (extract_graph_data ekW s).commits.map (fun g => g.branch) =
        s.branch_map.map Prod.snd ∧
      (∀ g ∈ (extract_graph_data ekW s).commits,
        g.is_merge = decide (1 < g.parents.length)) ∧
      (extract_graph_data ekW s).branches = s.branch_order) :=
  ⟨by decide, C4_reader_round_trip parseW evW [bW] ekW planWF_W (by decide) (by decide)⟩

/-- Witness for C5 at the concrete three-event input. -/
theorem C5_sequencer_sorted_stable_witness :
    evW ≠ [] ∧
    (∃ seq, sequenceEvents parseW evW = .ok seq ∧
      (seq.map (fun se => (se.orig, se.ev))).Perm evW.enum ∧
      seq.Pairwise (fun a b => a.date ≤ b.date) ∧
      (∀ se ∈ seq, parseW se.ev.date = some se.date) ∧
      ∀ d : Nat, seq.filter (fun se => decide (se.date = d)) =
        (indexedParsed parseW evW).filter (fun se => decide (se.date = d))) :=
  ⟨by decide, C5_sequencer_sorted_stable parseW evW (by decide) (by decide)⟩

/-- Witness for C6 at the concrete three-event, one-branch input. -/
theorem C6_timestamps_equal_monotone_witness :
    evW ≠ [] ∧
    (∃ s, create_life_repo parseW evW [bW] = .ok s ∧
      (∀ c ∈ s.commits, c.author_ts = c.commit_ts) ∧
      (s.commits.map (fun c => c.commit_ts)).Pairwise (fun a b => a ≤ b) ∧
      (s.commits.filter (fun c => c.parents.length = 1)).map
          (fun c => (c.message, c.author_ts, c.commit_ts)) =
        (seqOf parseW evW).map (fun se => (se.ev.commit_message, se.date, se.date))) :=
  ⟨by decide, C6_timestamps_equal_monotone parseW evW [bW] planWF_W (by decide)
    (by decide)⟩

/-- Witness for C10 at the concrete input whose branch entry omits both
`merges` and `merge_message`. -/
theorem C10_default_merge_witness :
    bW10.merges = none ∧
    (∃ s, create_life_repo parseW evW [bW10] = .ok s ∧
      MergeShape bW10 (seqOf parseW evW) s ∧
      (bW10.merge_message = none →
        mergeMessageOf bW10 = "Merge branch \x27" ++ bW10.name ++ "\x27")) :=
  ⟨rfl, C10_default_merge parseW evW [bW10] planWF_W10 (by decide) (by decide) bW10
    (List.mem_cons_self _ _) rfl⟩
